import Mathlib

/-!
# html-compile: a verification development

A shallow embedding of `compiler.go` and `ds.go` of `reesporte/html-compile`.

Modelling conventions.

* A Go `string` is the list of its bytes (`Str`); `len`, indexing and slicing count bytes.
  A string literal `"..."` of the source is written `bytes "..."`, its UTF-8 encoding.
* A Go run either returns, panics (slice out of range, nil dereference) or keeps recursing;
  `Outcome` records which.  Recursion is bounded by a fuel argument, and running out of fuel
  is the outcome `fuel`.
* The file system (`FileSystem`) gives the content of each file of the `components`
  directory and the number of files the process can still open: `getComponentHtml` never
  closes a file, so `os.Open` starts to fail when that many are open.
* `bufio.Scanner` is modelled by `scanLines`, with its limit of 64 KiB for a line.
* The process-wide variable `CACHED_HTML`, the log and the list of files opened are threaded
  through the expander as an explicit `World`.
-/

set_option autoImplicit false

namespace HtmlCompile

/-- A Go string: the list of its bytes. -/
abbrev Str := List Nat

/-- The bytes (UTF-8 encoding) of a string literal. -/
def bytes (s : String) : Str := (s.data.flatMap String.utf8EncodeChar).map UInt8.toNat

/-- How a Go call ends: it returns a value, it panics, or the recursion budget ran out. -/
inductive Outcome (α : Type) where
  | ok (a : α)
  | panic
  | fuel
deriving DecidableEq, Repr

/-! ## Library functions used by the source (`strings`, `unicode`) -/

/-- The UTF-8 encodings of the code points `unicode.IsSpace` accepts: tab, line feed,
vertical tab, form feed, carriage return, blank, U+0085, U+00A0, U+1680, U+2000 to U+200A,
U+2028, U+2029, U+202F, U+205F and U+3000. -/
def spaceEncodings : List Str :=
  [[0x09], [0x0A], [0x0B], [0x0C], [0x0D], [0x20], [0xC2, 0x85], [0xC2, 0xA0],
   [0xE1, 0x9A, 0x80],
   [0xE2, 0x80, 0x80], [0xE2, 0x80, 0x81], [0xE2, 0x80, 0x82], [0xE2, 0x80, 0x83],
   [0xE2, 0x80, 0x84], [0xE2, 0x80, 0x85], [0xE2, 0x80, 0x86], [0xE2, 0x80, 0x87],
   [0xE2, 0x80, 0x88], [0xE2, 0x80, 0x89], [0xE2, 0x80, 0x8A],
   [0xE2, 0x80, 0xA8], [0xE2, 0x80, 0xA9], [0xE2, 0x80, 0xAF], [0xE2, 0x81, 0x9F],
   [0xE3, 0x80, 0x80]]

/-- The number of bytes of the white-space rune the text begins with, 0 when it begins with
none.  A byte sequence that is not the encoding of a rune decodes to U+FFFD, which is no
white space. -/
def leadingSpace (s : Str) : Nat :=
  match spaceEncodings.find? (fun e => e.isPrefixOf s) with
  | some e => e.length
  | none => 0

/-- The number of bytes of the white-space rune the text ends with, 0 when it ends with
none. -/
def trailingSpace (s : Str) : Nat :=
  match spaceEncodings.find? (fun e => e.isSuffixOf s) with
  | some e => e.length
  | none => 0

/-- Go `strings.TrimLeftFunc(s, unicode.IsSpace)`; the first argument bounds the number of
runes removed. -/
def trimLeft : Nat → Str → Str
  | 0, s => s
  | n + 1, s => if leadingSpace s = 0 then s else trimLeft n (s.drop (leadingSpace s))

/-- Go `strings.TrimRightFunc(s, unicode.IsSpace)`; the first argument bounds the number of
runes removed. -/
def trimRight : Nat → Str → Str
  | 0, s => s
  | n + 1, s =>
    if trailingSpace s = 0 then s else trimRight n (s.take (s.length - trailingSpace s))

/-- Go `strings.TrimSpace`: leading, then trailing white space removed. -/
def TrimSpace (s : Str) : Str :=
  trimRight (trimLeft s.length s).length (trimLeft s.length s)

/-- Position of the first occurrence of `sub` in `s`, if any. -/
def indexOf (sub : Str) : Str → Option Nat
  | [] => if sub.isPrefixOf [] then some 0 else none
  | c :: s => if sub.isPrefixOf (c :: s) then some 0 else (indexOf sub s).map (· + 1)

/-- Go `strings.Index(s, sub)`: index of the first occurrence of `sub` in `s`, or `-1`. -/
def Index (s sub : Str) : Int :=
  match indexOf sub s with
  | some i => (i : Int)
  | none => -1

/-- Go `strings.HasPrefix`. -/
def HasPrefix (s pre : Str) : Bool := pre.isPrefixOf s

/-- Go slice expression `s[lo:hi]`; `none` is the run-time panic "slice bounds out of range". -/
def slice (s : Str) (lo hi : Int) : Option Str :=
  if 0 ≤ lo ∧ lo ≤ hi ∧ hi ≤ (s.length : Int) then
    some ((s.drop lo.toNat).take (hi.toNat - lo.toNat))
  else none

/-! ## `compiler.go`: the tag scanner -/

/-- Source `readTagName` (compiler.go 171-178).  `tag` begins with `<` and has at least two
bytes at the only call site, so the slice `tag[1:endIndex]` is in range there; the
result is `none` when it is not. -/
def readTagName (tag : Str) : Option Str :=
  let endIndex := Index tag (bytes "/>")
  let endIndex := if endIndex < 0 then (tag.length : Int) - 1 else endIndex
  (slice tag 1 endIndex).map TrimSpace

/-- Source `getComponents` (compiler.go 180-198).  The loop over `i` only reads `line[i:]`,
so it is written as a recursion over the remaining suffix.  The first equation is
`i == len(line)`; the second is the last byte, where `i+1 < len(line)` fails, so
nothing is added whether or not it is `<`; the third is the loop body with `c = line[i]` and
`d = line[i+1]`, the inner `i++` skipping `d`.  `none` is a panic inside `readTagName`. -/
def getComponents : Str → Option (List Str)
  | [] => some []
  | [_] => some []
  | c :: d :: rest2 =>
    if c = '<'.toNat then
      if d ≠ '/'.toNat then
        (readTagName (c :: d :: rest2)).bind fun tag =>
          if HasPrefix tag (bytes "app-") then
            (getComponents rest2).map (fun cs => tag.drop 4 :: cs)
          else getComponents rest2
      else getComponents (d :: rest2)
    else getComponents (d :: rest2)

/-! ## `ds.go` -/

/-- Source `Set` (ds.go 4-6): a `map[interface{}]bool` used as a set.  Only strings are ever
stored.  The map is modelled by the list of its keys, in insertion order. -/
structure Set where
  set : List Str
deriving DecidableEq, Repr

/-- Source `NewSet` (ds.go 9-13). -/
def NewSet : Set := ⟨[]⟩

/-- Source `Set.Add` (ds.go 16-18): `s.set[val] = true`. -/
def Set.Add (s : Set) (val : Str) : Set :=
  if val ∈ s.set then s else ⟨s.set ++ [val]⟩

/-- Source `Set.Contains` (ds.go 26-29). -/
def Set.Contains (s : Set) (val : Str) : Bool := decide (val ∈ s.set)

/-- Source `Set.Update` (ds.go 32-36). -/
def Set.Update (s : Set) (vals : List Str) : Set := vals.foldl Set.Add s

/-- Source `Set.ShallowCopy` (ds.go 39-47), on a non-nil receiver. -/
def Set.ShallowCopy (s : Set) : Set := s.set.foldl Set.Add NewSet

/-- Source `Set.Values` (ds.go 50-58). -/
def Set.Values (s : Set) : List Str := s.set

/-- Source `Stack` (ds.go 61): a slice, the top of the stack being its last element. -/
abbrev Stack (α : Type) := List α

/-- Source `Stack.IsEmpty` (ds.go 64-66). -/
def Stack.IsEmpty {α : Type} (s : Stack α) : Bool := s.length == 0

/-- Source `Stack.Push` (ds.go 69-71). -/
def Stack.Push {α : Type} (s : Stack α) (val : α) : Stack α := s ++ [val]

/-- Source `Stack.Pop` (ds.go 74-81): the element returned (`none` is Go `nil`) and the stack
left. -/
def Stack.Pop {α : Type} (s : Stack α) : Option α × Stack α :=
  if Stack.IsEmpty s then (none, s) else (s.getLast?, s.dropLast)

/-- Source `Stack.Peek` (ds.go 84-89); `none` is Go `nil`. -/
def Stack.Peek {α : Type} (s : Stack α) : Option α :=
  if Stack.IsEmpty s then none else s.getLast?

/-! ## Diagnostics, errors, Go maps -/

/-- The lines written with `log.Printf` / `log.Println`, by their arguments. -/
inductive LogMsg where
  /-- compiler.go 128: `ERROR: Unclosed tag: t. Output may be inconsistent.` -/
  | unclosedTag (t : Option Nat)
  /-- compiler.go 249: `FATAL ERROR: component '%s' is dependent on itself` -/
  | selfDependent (component : Str)
  /-- compiler.go 271: `WARNING: component '%s' found on line %d but no '%s.html' was found` -/
  | missingComponent (component : Str) (lineNumber : Int)
deriving DecidableEq, Repr

/-- The non-nil `error` values `validateComponents` returns. -/
inductive GoError where
  /-- the error of `ioutil.ReadDir` or `os.Open` (compiler.go 210, 224) -/
  | io
  /-- compiler.go 255: `could not compile: one or more components have circular dependencies` -/
  | circular
deriving DecidableEq, Repr

/-- Lookup in a Go `map[string]V`, the map being the list of its entries (`none`: no such
key). -/
def mapGet {β : Type} : List (Str × β) → Str → Option β
  | [], _ => none
  | (k, v) :: m, key => if k = key then some v else mapGet m key

/-- The keys of a Go map are pairwise different. -/
def mapWF {β : Type} (m : List (Str × β)) : Prop := (m.map Prod.fst).Nodup

/-! ## `compiler.go`: `validateComponents` -/

/-- An entry of the listing `ioutil.ReadDir` returns, by the two methods the source calls. -/
structure FileInfo where
  Name : Str
  IsDir : Bool
deriving DecidableEq, Repr

/-- The file system as the source sees it: the content of each file of the `components`
directory by its name (`none`: there is no such file to open), and the number of files the
process can open on top of those it holds when the compilation starts. -/
structure FileSystem where
  files : Str → Option Str
  limit : Nat

/-- Go `os.Open` on a file of the `components` directory while `nOpen` files opened before
are still open: it fails when the file does not exist or no descriptor is left. -/
def FileSystem.Open (fs : FileSystem) (name : Str) (nOpen : Nat) : Option Str :=
  if nOpen < fs.limit then fs.files name else none

/-- Go `bufio.MaxScanTokenSize`. -/
def MaxScanTokenSize : Nat := 64 * 1024

/-- The `dropCR` of `bufio.ScanLines`: a carriage return at the end of the line is dropped. -/
def dropCR (line : Str) : Str :=
  if line.getLast? = some '\r'.toNat then line.dropLast else line

/-- The lines a `bufio.Scanner` with the default split function and buffer yields, `acc`
being the bytes of the current line read so far.  A line ends at a line feed or at the end
of the text (an empty rest is no line).  A line of `MaxScanTokenSize` bytes or more does not
fit the buffer: `Scan` returns false there and the source, which never reads
`scanner.Err()`, takes it for the end of the text. -/
def scanLinesFrom : Str → Str → List Str
  | acc, [] =>
    if acc = [] then [] else if acc.length < MaxScanTokenSize then [dropCR acc] else []
  | acc, c :: rest =>
    if c = '\n'.toNat then
      if acc.length < MaxScanTokenSize then dropCR acc :: scanLinesFrom [] rest else []
    else scanLinesFrom (acc ++ [c]) rest

/-- The lines `scanner.Scan()` / `scanner.Text()` yield for a text. -/
def scanLines (text : Str) : List Str := scanLinesFrom [] text

/-- The direct-dependency mapping `dependencies` of `validateComponents`
(`map[string]*Set`; every stored pointer is non-nil). -/
abbrev Dependencies := List (Str × Set)

/-- compiler.go 228-233: the scanner loop over one fragment, adding every reference of every
line to the component's set. -/
def scanDependencies : List Str → Set → Option Set
  | [], s => some s
  | line :: lines, s =>
    match getComponents line with
    | none => none
    | some deps => scanDependencies lines (deps.foldl Set.Add s)

/-- compiler.go 213-236, "gather dependencies": the loop over the directory listing.
`nOpen` counts the files opened so far, which stay open until the function returns
(`defer componentFile.Close()`).  `ok none` is the early `return err` of line 224. -/
def gatherDependencies (fs : FileSystem) :
    List FileInfo → Dependencies → Nat → Outcome (Option Dependencies)
  | [], dependencies, _ => .ok (some dependencies)
  | component :: files, dependencies, nOpen =>
    if !component.IsDir then
      match slice component.Name 0 ((component.Name.length : Int) - 5) with
      | none => .panic
      | some name =>
        let inMap := (mapGet dependencies name).isSome
        if (bytes ".html").isSuffixOf component.Name && !inMap then
          match fs.Open component.Name nOpen with
          | none => .ok none
          | some content =>
            match scanDependencies (scanLines content) NewSet with
            | none => .panic
            | some s => gatherDependencies fs files (dependencies ++ [(name, s)]) (nOpen + 1)
        else gatherDependencies fs files dependencies nOpen
    else gatherDependencies fs files dependencies nOpen

/-- compiler.go 242-246: the inner loop `for _, d := range deps.Values()`.  `dependencies[d]`
is the nil pointer when `d` is not a key, and `ShallowCopy` dereferences it: `none` is that
panic. -/
def updateWithDependencies (dependencies : Dependencies) : List Str → Set → Option Set
  | [], componentDependencies => some componentDependencies
  | d :: ds, componentDependencies =>
    match mapGet dependencies d with
    | none => none
    | some dset =>
      let d_dependencies := dset.ShallowCopy
      updateWithDependencies dependencies ds (componentDependencies.Update d_dependencies.Values)

/-- compiler.go 239-252: the loop `for component, deps := range dependencies`, carrying
`valid` and the log.  `entries` are the entries still to visit. -/
def checkLoop (dependencies : Dependencies) :
    List (Str × Set) → Bool → List LogMsg → Outcome (Bool × List LogMsg)
  | [], valid, log => .ok (valid, log)
  | (component, deps) :: entries, valid, log =>
    match updateWithDependencies dependencies deps.Values deps.ShallowCopy with
    | none => .panic
    | some componentDependencies =>
      if componentDependencies.Contains component then
        checkLoop dependencies entries false (log ++ [LogMsg.selfDependent component])
      else checkLoop dependencies entries valid log

/-- compiler.go 238-258, "check for circular dependencies": the error returned (`none` is
`nil`) and the lines logged. -/
def checkCircularDependencies (dependencies : Dependencies) :
    Outcome (Option GoError × List LogMsg) :=
  match checkLoop dependencies dependencies true [] with
  | .ok (valid, log) => .ok (if !valid then some GoError.circular else none, log)
  | .panic => .panic
  | .fuel => .fuel

/-- Source `validateComponents` (compiler.go 201-259).  `readDir` is the result of
`ioutil.ReadDir` on the components directory (`none`: it fails). -/
def validateComponents (readDir : Option (List FileInfo)) (fs : FileSystem) :
    Outcome (Option GoError × List LogMsg) :=
  match readDir with
  | none => .ok (some GoError.io, [])
  | some files =>
    match gatherDependencies fs files [] 0 with
    | .ok none => .ok (some GoError.io, [])
    | .ok (some dependencies) => checkCircularDependencies dependencies
    | .panic => .panic
    | .fuel => .fuel

/-! ## `compiler.go`: the component expander -/

/-- The mutable state the expander touches: the package variable `CACHED_HTML`
(compiler.go 19), the lines logged, and the names of the files opened with `os.Open`, in
order; none of them is ever closed. -/
structure World where
  CACHED_HTML : List (Str × Str)
  log : List LogMsg
  opened : List Str
deriving DecidableEq, Repr

/-- compiler.go 292-300: the loop `for _, component := range components` of `processLine`,
carrying `line` and `retval`; `expand` stands for `getComponentHtml`.  Go evaluates
`line[:componentIndex]` before the call and the second slice after it. -/
def substituteLoop (expand : Str → Int → World → Outcome (Str × World)) (lineNumber : Int) :
    List Str → Str → Str → World → Outcome (Str × World)
  | [], _, retval, w => .ok (retval, w)
  | component :: components, line, retval, w =>
    let componentTag := (bytes "<app-") ++ component ++ (bytes "/>")
    let componentIndex := Index line componentTag
    let componentIndex := if componentIndex < 0 then (line.length : Int) - 1 else componentIndex
    match slice line 0 componentIndex with
    | none => .panic
    | some before =>
      match expand component lineNumber w with
      | .ok (html, w1) =>
        match slice line (componentIndex + (componentTag.length : Int)) (line.length : Int) with
        | none => .panic
        | some line1 =>
          substituteLoop expand lineNumber components line1 (retval ++ (before ++ html)) w1
      | .panic => .panic
      | .fuel => .fuel

/-- Source `processLine` (compiler.go 286-303), over the function `expand` it calls for a
component. -/
def processLineWith (expand : Str → Int → World → Outcome (Str × World))
    (line : Str) (lineNumber : Int) (w : World) : Outcome (Str × World) :=
  match getComponents line with
  | none => .panic
  | some components =>
    if components.length > 0 then substituteLoop expand lineNumber components line [] w
    else .ok (line, w)

/-- compiler.go 277-279 and 364-366: the scanner loop `html += processLine(.., scanner.Text(),
n)`, carrying the line number and the text built so far. -/
def expandLines (processLine : Str → Int → World → Outcome (Str × World)) :
    List Str → Int → Str → World → Outcome (Str × World)
  | [], _, html, w => .ok (html, w)
  | line :: lines, lineNumber, html, w =>
    match processLine line lineNumber w with
    | .ok (s, w1) => expandLines processLine lines (lineNumber + 1) (html ++ s) w1
    | .panic => .panic
    | .fuel => .fuel

/-- Source `getComponentHtml` (compiler.go 262-283).  The first argument bounds the depth of
the recursion through `processLine`.  The file `path.Join(directory, "components",
component+".html")` is looked up under the name `component ++ ".html"`; the files opened by
earlier calls are still open. -/
def getComponentHtml (fs : FileSystem) :
    Nat → Str → Int → World → Outcome (Str × World)
  | 0, _, _, _ => .fuel
  | n + 1, component, lineNumber, w =>
    match mapGet w.CACHED_HTML component with
    | some html => .ok (html, w)
    | none =>
      match fs.Open (component ++ (bytes ".html")) w.opened.length with
      | none => .ok ([], { w with log := w.log ++ [LogMsg.missingComponent component lineNumber] })
      | some content =>
        let w0 := { w with opened := w.opened ++ [component ++ (bytes ".html")] }
        match expandLines (processLineWith (getComponentHtml fs n)) (scanLines content) 0 [] w0 with
        | .ok (html, w1) =>
          .ok (html, { w1 with CACHED_HTML := (component, html) :: w1.CACHED_HTML })
        | .panic => .panic
        | .fuel => .fuel

/-- Source `processLine` (compiler.go 286-303), with recursion budget `n` for the calls of
`getComponentHtml`. -/
def processLine (fs : FileSystem) (n : Nat) (line : Str) (lineNumber : Int) (w : World) :
    Outcome (Str × World) :=
  processLineWith (getComponentHtml fs n) line lineNumber w

/-- `Bounded expand k`: in a state with `k` or more files open, a call of `expand` does not
run out of recursion budget, and when it returns no fewer files are open than before. -/
def Bounded (expand : Str → Int → World → Outcome (Str × World)) (k : Nat) : Prop :=
  ∀ c l w, k ≤ w.opened.length →
    expand c l w ≠ Outcome.fuel ∧
    ∀ html w1, expand c l w = Outcome.ok (html, w1) → w.opened.length ≤ w1.opened.length

/-- The state at the start of a run: nothing cached, nothing logged, nothing opened. -/
def World.init : World := ⟨[], [], []⟩

/-! ## `compiler.go`: `PrettifyHtml` -/

/-- The token kinds of `golang.org/x/net/html`. -/
inductive TokenType where
  | ErrorToken
  | TextToken
  | StartTagToken
  | EndTagToken
  | SelfClosingTagToken
  | CommentToken
  | DoctypeToken
deriving DecidableEq, Repr

/-- A token of the tokenizer, by what `PrettifyHtml` reads of it: the kind `tt` returned by
`z.Next()`, the fields `DataAtom` and `Data` of `z.Token()`, and the text its method
`String()` returns (for a tag the tag as written out, for a text token its `Data` with the
HTML escapes put back). -/
structure Token where
  tt : TokenType
  DataAtom : Nat
  Data : Str
  String : Str
deriving DecidableEq, Repr

/-- The local variables of the loop of `PrettifyHtml` (compiler.go 115-118) and the text
written to `outputFile` so far. -/
structure Printer where
  indentationLevel : Int
  currentIndentationLevel : Int
  tags : Stack Nat
  outputFile : Str
deriving DecidableEq, Repr

/-- compiler.go 155-157: four blanks written `n` times (no time when `n ≤ 0`). -/
def indentation (n : Int) : Str := (List.replicate n.toNat (bytes "    ")).flatten

/-- compiler.go 142-166: the body of the loop for one token that is not the error token. -/
def prettifyToken (p : Printer) (tok : Token) : Printer :=
  if TrimSpace tok.String ≠ [] then
    let p1 : Printer :=
      if tok.tt = TokenType.StartTagToken ∧ tok.tt ≠ TokenType.EndTagToken then
        { p with tags := Stack.Push p.tags tok.DataAtom,
                 indentationLevel := p.indentationLevel + 1 }
      else if tok.tt = TokenType.EndTagToken ∧ some tok.DataAtom = Stack.Peek p.tags then
        { p with tags := (Stack.Pop p.tags).2,
                 indentationLevel := p.indentationLevel - 1,
                 currentIndentationLevel := p.indentationLevel - 1 }
      else p
    let text := if tok.tt ≠ TokenType.TextToken then TrimSpace tok.String else TrimSpace tok.Data
    { p1 with outputFile :=
                p1.outputFile ++ indentation p1.currentIndentationLevel ++ text ++ ['\n'.toNat],
              currentIndentationLevel := p1.indentationLevel }
  else p

/-- compiler.go 121-167: the loop of `PrettifyHtml` up to the first error token; the end of
the list is the tokenizer's end of stream. -/
def prettifyLoop : Printer → List Token → Printer
  | p, [] => p
  | p, tok :: toks =>
    if tok.tt = TokenType.ErrorToken then p else prettifyLoop (prettifyToken p tok) toks

/-- What a call of `PrettifyHtml` leaves: the text written, the tag stack, the lines logged,
whether the temporary file was renamed and whether `log.Fatalf` ended the process. -/
structure Prettified where
  outputFile : Str
  tags : Stack Nat
  log : List LogMsg
  renamed : Bool
  fatal : Bool
deriving DecidableEq, Repr

/-- Source `PrettifyHtml` (compiler.go 115-167), from the point where the output file is
open.  `toks` are the tokens the tokenizer yields, `isEOF` says whether `z.Err()` is `io.EOF`
when the error token arrives, `renameOk` whether `os.Rename` succeeds. -/
def PrettifyHtml (toks : List Token) (isEOF renameOk : Bool) : Prettified :=
  let p := prettifyLoop ⟨0, 0, [], []⟩ toks
  if isEOF then
    if !Stack.IsEmpty p.tags then
      let r := Stack.Pop p.tags
      ⟨p.outputFile, r.2, [LogMsg.unclosedTag r.1], renameOk, !renameOk⟩
    else ⟨p.outputFile, p.tags, [], renameOk, !renameOk⟩
  else ⟨p.outputFile, p.tags, [], false, true⟩

/-! ## `compiler.go`: `stripComments` and the expansion loop of `main` -/

/-- The replacement loop of `regexp.ReplaceAllString` for the pattern `(?s)(<!--.*?-->)` and
the empty replacement: the leftmost `<!--` is matched with the first `-->` that starts at or
behind its end (`.*?` is not greedy and, with `(?s)`, crosses newlines), the match is cut out
and the search goes on behind it.  When the leftmost `<!--` has no `-->` behind it no later
one has, and the rest is kept.  The first argument bounds the number of matches. -/
def stripCommentsFrom : Nat → Str → Str
  | 0, s => s
  | n + 1, s =>
    match indexOf (bytes "<!--") s with
    | none => s
    | some i =>
      match indexOf (bytes "-->") (s.drop (i + 4)) with
      | none => s
      | some j => s.take i ++ stripCommentsFrom n (s.drop (i + 4 + j + 3))

/-- Source `stripComments` (compiler.go 306-308).  A match has at least seven bytes, so
there are fewer matches than bytes. -/
def stripComments (html : Str) : Str := stripCommentsFrom html.length html

/-- compiler.go 361-366: the expansion loop of `main` over the text `strippedOfComments`,
from the empty `output`; `n` bounds the depth of the recursion. -/
def mainLoop (fs : FileSystem) (n : Nat) (strippedOfComments : Str) (w : World) :
    Outcome (Str × World) :=
  expandLines (processLine fs n) (scanLines strippedOfComments) 0 [] w

/-! ## Specification vocabulary for the dependency graph -/

/-- Edge of the dependency graph: `a` is a key of the mapping and `b` is in its set. -/
def DependsOn (m : Dependencies) (a b : Str) : Prop :=
  ∃ s, mapGet m a = some s ∧ b ∈ s.set

/-- Component `c` lies on a cycle: it reaches itself along one or more edges. -/
def OnCycle (m : Dependencies) (c : Str) : Prop :=
  Relation.TransGen (DependsOn m) c c

/-- Every referenced name is a discovered component (a key of the mapping). -/
def AllDiscovered (m : Dependencies) : Prop :=
  ∀ c s d, (c, s) ∈ m → d ∈ s.set → (mapGet m d).isSome = true

/-! ## Specification vocabulary for the tag scanner -/

/-- The reference tag `<app-NAME/>` for the name `n`. -/
def refTag (n : Str) : Str := (bytes "<app-") ++ n ++ (bytes "/>")

/-- A name the reference syntax admits: no `<`, no `/>`, no white space at either end. -/
def NameOK (n : Str) : Prop :=
  '<'.toNat ∉ n ∧ ¬ (bytes "/>") <:+: n ∧ leadingSpace n = 0 ∧ trailingSpace n = 0

/-- The line `s0 ++ <app-n1/> ++ s1 ++ ... ++ <app-nk/> ++ sk`, given `s0` and the pairs
`(n1, s1), ..., (nk, sk)`. -/
def lineOf (s0 : Str) (refs : List (Str × Str)) : Str :=
  s0 ++ (refs.map (fun r => refTag r.1 ++ r.2)).flatten

/-! ## Specification vocabulary for the pretty printer -/

/-- The line written for a token at depth `d`: `4 * d` blanks, the trimmed text, a newline. -/
def tokenLine (d : Nat) (tok : Token) : Str :=
  List.replicate (4 * d) ' '.toNat ++
    (if tok.tt ≠ TokenType.TextToken then TrimSpace tok.String else TrimSpace tok.Data) ++
    ['\n'.toNat]

/-- `Nested d toks ds`: `toks` is a well-formed token sequence lying inside `d` open
elements, and `ds` lists, token by token, the number of elements open around each token.
A non-blank text token stands at depth `d`; a start tag and the end tag with the same
identifier stand at depth `d`, and what lies between them is nested at depth `d + 1`. -/
inductive Nested : Nat → List Token → List Nat → Prop where
  | nil (d : Nat) : Nested d [] []
  | text (d : Nat) (t : Token) (rest : List Token) (ds : List Nat)
      (ht : t.tt = TokenType.TextToken) (hb : TrimSpace t.String ≠ [])
      (hrest : Nested d rest ds) : Nested d (t :: rest) (d :: ds)
  | element (d : Nat) (s e : Token) (inner rest : List Token) (di dr : List Nat)
      (hs : s.tt = TokenType.StartTagToken) (he : e.tt = TokenType.EndTagToken)
      (hid : e.DataAtom = s.DataAtom)
      (hsb : TrimSpace s.String ≠ []) (heb : TrimSpace e.String ≠ [])
      (hinner : Nested (d + 1) inner di) (hrest : Nested d rest dr) :
      Nested d (s :: (inner ++ e :: rest)) (d :: (di ++ d :: dr))

/-- A token the loop of `PrettifyHtml` skips: its `String()` is empty or white space only
(compiler.go 144). -/
def Token.blank (tok : Token) : Bool := decide (TrimSpace tok.String = [])

/-- The pretty printer as section 4.6 of the specification words it, with the tag stack as
the only state and the depth being the number of tags on it: the depths at which the
non-blank tokens are written.  A start tag is written at the depth before its push, an end
tag equal to the top of the stack at the depth after its pop, anything else at the current
depth. -/
def specDepths : Stack Nat → List Token → List Nat
  | _, [] => []
  | st, tok :: toks =>
    if tok.blank then specDepths st toks
    else if tok.tt = TokenType.StartTagToken then
      st.length :: specDepths (st ++ [tok.DataAtom]) toks
    else if tok.tt = TokenType.EndTagToken ∧ st.getLast? = some tok.DataAtom then
      st.dropLast.length :: specDepths st.dropLast toks
    else st.length :: specDepths st toks

/-- The tag stack of the specification's printer after the tokens. -/
def specStack : Stack Nat → List Token → Stack Nat
  | st, [] => st
  | st, tok :: toks =>
    if tok.blank then specStack st toks
    else if tok.tt = TokenType.StartTagToken then specStack (st ++ [tok.DataAtom]) toks
    else if tok.tt = TokenType.EndTagToken ∧ st.getLast? = some tok.DataAtom then
      specStack st.dropLast toks
    else specStack st toks

/-! ## Specification vocabulary for the lines of a document -/

/-- The lines of a text as written, `acc` being the current line so far: a line ends at a
line feed or at the end of the text (an empty rest is no line). -/
def rawLinesFrom : Str → Str → List Str
  | acc, [] => if acc = [] then [] else [acc]
  | acc, c :: rest =>
    if c = '\n'.toNat then acc :: rawLinesFrom [] rest else rawLinesFrom (acc ++ [c]) rest

/-- The lines of a document, without their terminators (line feed, or carriage return and
line feed). -/
def linesOf (text : Str) : List Str := (rawLinesFrom [] text).map dropCR

/-- Every line of the text, its carriage return included, is shorter than 64 KiB. -/
def ShortLines (text : Str) : Prop := ∀ l ∈ rawLinesFrom [] text, l.length < MaxScanTokenSize

/-! ## Specification vocabulary for the comment stripper -/

/-- The text holds an HTML comment: an occurrence of `<!--` followed, without overlap, by an
occurrence of `-->`. -/
def HasComment (s : Str) : Prop :=
  ∃ a b c : Str, s = a ++ (bytes "<!--") ++ b ++ (bytes "-->") ++ c

/-- `Strips s r`: `r` is `s` with its comments cut out in one pass from the left.  Each
comment removed starts at the first `<!--` behind the previous one and ends with the first
`-->` behind that; the text in front of it is kept; what follows the last comment holds no
comment and is kept. -/
inductive Strips : Str → Str → Prop where
  | done (s : Str) (h : ¬ HasComment s) : Strips s s
  | cut (pre body rest r : Str) (hpre : ¬ (bytes "<!--") <:+: pre)
      (hbody : ¬ (bytes "-->") <:+: body) (hrest : Strips rest r) :
      Strips (pre ++ (bytes "<!--") ++ body ++ (bytes "-->") ++ rest) (pre ++ r)

/-! ## Concrete inputs -/

/-- Three components referring to one another in a ring: `a -> b -> c -> a`. -/
def ring3 : Dependencies :=
  [(bytes "a", ⟨[(bytes "b")]⟩), (bytes "b", ⟨[(bytes "c")]⟩), (bytes "c", ⟨[(bytes "a")]⟩)]

/-- The components directory of the ring: `a.html`, `b.html`, `c.html`. -/
def ring3Files : List FileInfo :=
  [⟨(bytes "a.html"), false⟩, ⟨(bytes "b.html"), false⟩, ⟨(bytes "c.html"), false⟩]

/-- The ring's fragments, one line each, the reference to the next; 1024 files can be open. -/
def ring3Store : FileSystem where
  files := fun name =>
    if name = (bytes "a.html") then some (bytes "<app-b/>\n")
    else if name = (bytes "b.html") then some (bytes "<app-c/>\n")
    else if name = (bytes "c.html") then some (bytes "<app-a/>\n")
    else none
  limit := 1024

/-- The ring's fragments when only three files can be open. -/
def ring3StoreSmall : FileSystem := { ring3Store with limit := 3 }

/-- Component `a` refers to `b`, and `b` refers to nothing. -/
def chain2 : Dependencies := [(bytes "a", ⟨[(bytes "b")]⟩), (bytes "b", ⟨[]⟩)]

/-- Component `a` refers to `b`, and there is no component `b`. -/
def danglingDeps : Dependencies := [(bytes "a", ⟨[(bytes "b")]⟩)]

/-- A components directory holding only `foo.html`, whose one line is `X`; 1024 files can be
open. -/
def fooStore : FileSystem where
  files := fun name => if name = (bytes "foo.html") then some (bytes "X\n") else none
  limit := 1024

/-- A token whose `Data` is `data` and whose `String()` is `text`. -/
def mkToken (tt : TokenType) (atom : Nat) (data text : String) : Token :=
  ⟨tt, atom, bytes data, bytes text⟩

/-- The tokens of `<a><b>text</b></a>` (`atom.A = 0x1`, `atom.B = 0x101`). -/
def nestedTokens : List Token :=
  [mkToken .StartTagToken 0x1 "a" "<a>", mkToken .StartTagToken 0x101 "b" "<b>",
   mkToken .TextToken 0 "text" "text",
   mkToken .EndTagToken 0x101 "b" "</b>", mkToken .EndTagToken 0x1 "a" "</a>"]

/-- The tokens of `<a><b>text`: two elements are left open. -/
def twoOpenTokens : List Token :=
  [mkToken .StartTagToken 0x1 "a" "<a>", mkToken .StartTagToken 0x101 "b" "<b>",
   mkToken .TextToken 0 "text" "text"]

/-- The tokens of `<a><b>text</b>`: `a` is left open. -/
def oneOpenTokens : List Token :=
  [mkToken .StartTagToken 0x1 "a" "<a>", mkToken .StartTagToken 0x101 "b" "<b>",
   mkToken .TextToken 0 "text" "text", mkToken .EndTagToken 0x101 "b" "</b>"]

/-- The tokens of `<a>x</b></a>`: the end tag `</b>` matches nothing. -/
def mismatchedTokens : List Token :=
  [mkToken .StartTagToken 0x1 "a" "<a>", mkToken .TextToken 0 " " " ",
   mkToken .TextToken 0 "x" "x", mkToken .EndTagToken 0x101 "b" "</b>",
   mkToken .EndTagToken 0x1 "a" "</a>"]

/-- The tokens of `<a>&#13;</a>`.  The tokenizer unescapes the character reference, so the
`Data` of the text token is a carriage return, and `String()` escapes it again to `&#13;`. -/
def carriageReturnTokens : List Token :=
  [mkToken .StartTagToken 0x1 "a" "<a>", mkToken .TextToken 0 "\r" "&#13;",
   mkToken .EndTagToken 0x1 "a" "</a>"]

/-- The tokens of `<bar></foo>`: `html/atom` knows neither name, so both have `DataAtom` 0. -/
def unknownTagTokens : List Token :=
  [mkToken .StartTagToken 0 "bar" "<bar>", mkToken .EndTagToken 0 "foo" "</foo>"]

/-- The listing of a components directory with the files `a.html` and `foo.html`. -/
def blankTagFiles : List FileInfo := [⟨(bytes "a.html"), false⟩, ⟨(bytes "foo.html"), false⟩]

/-- The fragments `a.html`, whose line `<app-foo />` has a blank before `/>`, and `foo.html`,
whose line is `X`; 1024 files can be open. -/
def blankTagStore : FileSystem where
  files := fun name =>
    if name = (bytes "a.html") then some (bytes "<app-foo />\n")
    else if name = (bytes "foo.html") then some (bytes "X\n")
    else none
  limit := 1024

/-- A document of two lines, the first of 65536 bytes `x`, the second `y`. -/
def longLineDocument : Str := List.replicate 65536 'x'.toNat ++ (bytes "\ny")

/-- A components directory listing with a file `a.js` next to `foo.html`. -/
def jsAndFooFiles : List FileInfo := [⟨(bytes "a.js"), false⟩, ⟨(bytes "foo.html"), false⟩]

/-! ## Lemmas: sets and maps -/

theorem Set.mem_Add (s : Set) (v x : Str) : x ∈ (s.Add v).set ↔ x ∈ s.set ∨ x = v := by
  unfold Set.Add
  split
  · constructor
    · intro h; exact Or.inl h
    · rintro (h | h)
      · exact h
      · subst h; assumption
  · simp

theorem Set.mem_Update (vals : List Str) (s : Set) (x : Str) :
    x ∈ (s.Update vals).set ↔ x ∈ s.set ∨ x ∈ vals := by
  unfold Set.Update
  induction vals generalizing s with
  | nil => simp
  | cons v vs ih =>
    rw [List.foldl_cons, ih, Set.mem_Add]
    simp only [List.mem_cons]
    tauto

theorem Set.mem_ShallowCopy (s : Set) (x : Str) : x ∈ s.ShallowCopy.set ↔ x ∈ s.set := by
  have h := Set.mem_Update s.set NewSet x
  unfold Set.Update at h
  unfold Set.ShallowCopy
  rw [h]
  simp [NewSet]

theorem mapGet_mem {β : Type} (m : List (Str × β)) (k : Str) (v : β)
    (h : mapGet m k = some v) : (k, v) ∈ m := by
  induction m with
  | nil => simp [mapGet] at h
  | cons e m ih =>
    obtain ⟨k1, v1⟩ := e
    unfold mapGet at h
    split at h
    · rename_i hk
      subst hk
      simp only [Option.some.injEq] at h
      subst h
      exact List.mem_cons_self _ _
    · exact List.mem_cons_of_mem _ (ih h)

theorem mapGet_of_mem {β : Type} (m : List (Str × β)) (hwf : mapWF m) (k : Str) (v : β)
    (h : (k, v) ∈ m) : mapGet m k = some v := by
  induction m with
  | nil => simp at h
  | cons e m ih =>
    obtain ⟨k1, v1⟩ := e
    unfold mapWF at hwf
    simp only [List.map_cons, List.nodup_cons] at hwf
    unfold mapGet
    rcases List.mem_cons.mp h with h1 | h1
    · simp only [Prod.mk.injEq] at h1
      obtain ⟨rfl, rfl⟩ := h1
      simp
    · have hne : k1 ≠ k := by
        rintro rfl
        exact hwf.1 (List.mem_map.mpr ⟨(k1, v), h1, rfl⟩)
      simp only [hne, if_false]
      exact ih hwf.2 h1
/-! ## Lemmas: the cycle check -/

/-- The inner loop returns when every name it looks up is a key, and then holds what it
started with and the direct dependencies of the names visited. -/
theorem updateWithDependencies_some (m : Dependencies) (ds : List Str) (acc : Set)
    (h : ∀ d ∈ ds, (mapGet m d).isSome = true) :
    ∃ r, updateWithDependencies m ds acc = some r ∧
      ∀ x, x ∈ r.set ↔ x ∈ acc.set ∨ ∃ d ∈ ds, DependsOn m d x := by
  induction ds generalizing acc with
  | nil => exact ⟨acc, rfl, by simp⟩
  | cons d ds ih =>
    have hd := h d (List.mem_cons_self _ _)
    obtain ⟨dset, hdset⟩ := Option.isSome_iff_exists.mp hd
    obtain ⟨r, hr, hmem⟩ := ih (acc.Update dset.ShallowCopy.Values)
      (fun e he => h e (List.mem_cons_of_mem _ he))
    refine ⟨r, ?_, ?_⟩
    · simp only [updateWithDependencies, hdset]
      exact hr
    · intro x
      rw [hmem, Set.mem_Update]
      simp only [Set.Values, Set.mem_ShallowCopy, List.mem_cons, exists_eq_or_imp]
      constructor
      · rintro ((h1 | h1) | h1)
        · exact Or.inl h1
        · exact Or.inr (Or.inl ⟨dset, hdset, h1⟩)
        · exact Or.inr (Or.inr h1)
      · rintro (h1 | ⟨s, hs, h1⟩ | h1)
        · exact Or.inl (Or.inl h1)
        · rw [hdset] at hs
          simp only [Option.some.injEq] at hs
          subst hs
          exact Or.inl (Or.inr h1)
        · exact Or.inr h1

/-- On an acyclic mapping whose names are all discovered, the loop over any part of the
entries flags nothing. -/
theorem checkLoop_acyclic (m : Dependencies) (hwf : mapWF m) (hall : AllDiscovered m)
    (hacyc : ∀ c, ¬ OnCycle m c) (entries : List (Str × Set)) (hsub : ∀ e ∈ entries, e ∈ m)
    (valid : Bool) (log : List LogMsg) :
    checkLoop m entries valid log = .ok (valid, log) := by
  induction entries with
  | nil => rfl
  | cons e entries ih =>
    obtain ⟨c, s⟩ := e
    have hcs : (c, s) ∈ m := hsub _ (List.mem_cons_self _ _)
    have hget : mapGet m c = some s := mapGet_of_mem m hwf c s hcs
    obtain ⟨r, hr, hmem⟩ := updateWithDependencies_some m s.Values s.ShallowCopy
      (fun d hd => hall c s d hcs hd)
    have hnot : r.Contains c = false := by
      simp only [Set.Contains, decide_eq_false_iff_not]
      intro hc
      rcases (hmem c).mp hc with h1 | ⟨d, hd, h1⟩
      · rw [Set.mem_ShallowCopy] at h1
        exact hacyc c (Relation.TransGen.single ⟨s, hget, h1⟩)
      · exact hacyc c (Relation.TransGen.head ⟨s, hget, hd⟩ (Relation.TransGen.single h1))
    simp only [checkLoop, hr, hnot]
    exact ih (fun e he => hsub e (List.mem_cons_of_mem _ he))
/-! ## Lemmas: the tag scanner -/

theorem lt_eq : '<'.toNat = 60 := rfl
theorem slash_eq : '/'.toNat = 47 := rfl
theorem slashGt_eq : (bytes "/>") = [47, 62] := rfl
theorem appDash_eq : (bytes "app-") = [97, 112, 112, 45] := rfl
theorem ltAppDash_eq : (bytes "<app-") = [60, 97, 112, 112, 45] := rfl

/-- The first `/>` after a text without `/>` is right behind it. -/
theorem indexOf_slashGt (p rest : Str) (h : ¬ [47, 62] <:+: p) :
    indexOf [47, 62] (p ++ 47 :: 62 :: rest) = some p.length := by
  induction p with
  | nil => simp [indexOf]
  | cons c p ih =>
    have hp : ¬ [47, 62] <:+: p := fun hi => h (List.IsInfix.trans hi (List.infix_cons (List.infix_refl p)))
    have hpre : List.isPrefixOf [47, 62] (c :: (p ++ 47 :: 62 :: rest)) = false := by
      cases p with
      | nil => simp [List.isPrefixOf]
      | cons d p =>
        by_contra hcon
        simp only [List.isPrefixOf, List.cons_append, Bool.and_true, Bool.not_eq_false, Bool.and_eq_true, beq_iff_eq] at hcon
        obtain ⟨rfl, rfl⟩ := hcon
        exact h ⟨[], p, by simp⟩
    rw [List.cons_append, indexOf, hpre, ih hp]
    simp

theorem leadingSpace_eq_zero (s : Str) :
    leadingSpace s = 0 ↔ ∀ e ∈ spaceEncodings, ¬ e <+: s := by
  unfold leadingSpace
  cases h : spaceEncodings.find? (fun e => e.isPrefixOf s) with
  | none =>
    simp only [true_iff]
    intro e he hp
    have := List.find?_eq_none.mp h e he
    exact this (by simpa using List.isPrefixOf_iff_prefix.mpr hp)
  | some e =>
    have hmem : e ∈ spaceEncodings := List.mem_of_find?_eq_some h
    have hp : e <+: s := by
      have := List.find?_some h
      exact List.isPrefixOf_iff_prefix.mp (by simpa using this)
    have hlen : ∀ x ∈ spaceEncodings, x.length ≠ 0 := by decide
    constructor
    · intro h0; exact absurd h0 (hlen e hmem)
    · intro hall; exact absurd hp (hall e hmem)

theorem trailingSpace_eq_zero (s : Str) :
    trailingSpace s = 0 ↔ ∀ e ∈ spaceEncodings, ¬ e <:+ s := by
  unfold trailingSpace
  cases h : spaceEncodings.find? (fun e => e.isSuffixOf s) with
  | none =>
    simp only [true_iff]
    intro e he hp
    have := List.find?_eq_none.mp h e he
    exact this (by simpa using List.isSuffixOf_iff_suffix.mpr hp)
  | some e =>
    have hmem : e ∈ spaceEncodings := List.mem_of_find?_eq_some h
    have hp : e <:+ s := by
      have := List.find?_some h
      exact List.isSuffixOf_iff_suffix.mp (by simpa using this)
    have hlen : ∀ x ∈ spaceEncodings, x.length ≠ 0 := by decide
    constructor
    · intro h0; exact absurd h0 (hlen e hmem)
    · intro hall; exact absurd hp (hall e hmem)

/-- A text that neither begins nor ends with white space is left alone by `TrimSpace`. -/
theorem TrimSpace_eq_self (s : Str) (hh : leadingSpace s = 0) (hl : trailingSpace s = 0) :
    TrimSpace s = s := by
  have h1 : ∀ n, trimLeft n s = s := by
    intro n
    cases n with
    | zero => rfl
    | succ n => rw [trimLeft, if_pos hh]
  have h2 : ∀ n, trimRight n s = s := by
    intro n
    cases n with
    | zero => rfl
    | succ n => rw [trimRight, if_pos hl]
  unfold TrimSpace
  rw [h1, h2]

/-- A white-space rune at the end of `pre ++ n` lies in `n`, when the last byte of `pre`
occurs in no white-space rune. -/
theorem trailingSpace_append (pre n : Str) (b : Nat) (hb : pre.getLast? = some b)
    (hnot : ∀ e ∈ spaceEncodings, b ∉ e) (hn : trailingSpace n = 0) :
    trailingSpace (pre ++ n) = 0 := by
  rw [trailingSpace_eq_zero] at hn ⊢
  intro e he hsuf
  obtain ⟨t, ht⟩ := hsuf
  rcases List.append_eq_append_iff.mp ht with ⟨a, hpre, hE⟩ | ⟨c, hT, hN⟩
  · cases a with
    | nil =>
      simp only [List.nil_append] at hE
      exact hn e he ⟨[], by simp [hE]⟩
    | cons x a =>
      have hlast : (x :: a).getLast? = some b := by
        rw [hpre, List.getLast?_append_of_ne_nil _ (List.cons_ne_nil x a)] at hb
        exact hb
      have hmem : b ∈ x :: a := List.mem_of_getLast?_eq_some hlast
      exact hnot e he (by rw [hE]; exact List.mem_append_left _ hmem)
  · exact hn e he ⟨c, hN.symm⟩

theorem TrimSpace_appName (n : Str) (hlast : trailingSpace n = 0) :
    TrimSpace (97 :: 112 :: 112 :: 45 :: n) = 97 :: 112 :: 112 :: 45 :: n := by
  apply TrimSpace_eq_self
  · rw [leadingSpace_eq_zero]
    intro e he hp
    obtain ⟨t, ht⟩ := hp
    have hne : ∀ x ∈ spaceEncodings, x.head? ≠ some 97 ∧ x ≠ [] := by decide
    cases e with
    | nil => exact (hne [] he).2 rfl
    | cons x e =>
      simp only [List.cons_append, List.cons.injEq] at ht
      exact (hne (x :: e) he).1 (by rw [ht.1]; rfl)
  · exact trailingSpace_append [97, 112, 112, 45] n 45 rfl (by decide) hlast

theorem readTagName_refTag (n rest : Str) (hn : NameOK n) :
    readTagName (60 :: 97 :: 112 :: 112 :: 45 :: (n ++ 47 :: 62 :: rest)) =
      some (97 :: 112 :: 112 :: 45 :: n) := by
  obtain ⟨-, hinf, -, hlast⟩ := hn
  have hidx : indexOf [47, 62] (60 :: 97 :: 112 :: 112 :: 45 :: (n ++ 47 :: 62 :: rest))
      = some (n.length + 5) := by
    simp [indexOf, List.isPrefixOf, indexOf_slashGt n rest hinf]
  have htrim : TrimSpace (97 :: 112 :: 112 :: 45 :: n) = 97 :: 112 :: 112 :: 45 :: n :=
    TrimSpace_appName n hlast
  unfold readTagName Index
  rw [slashGt_eq, hidx]
  simp only [slice]
  have h1 : ¬ ((n.length + 5 : Nat) : Int) < 0 := by omega
  simp only [h1, if_false]
  have h2 : (0 : Int) ≤ 1 ∧ (1 : Int) ≤ ((n.length + 5 : Nat) : Int) ∧
      ((n.length + 5 : Nat) : Int) ≤
        (((60 :: 97 :: 112 :: 112 :: 45 :: (n ++ 47 :: 62 :: rest)).length : Nat) : Int) := by
    simp only [List.length_cons, List.length_append]
    omega
  rw [if_pos h2]
  simp only [Option.map_some']
  have h3 : ((n.length + 5 : Nat) : Int).toNat - (1 : Int).toNat = n.length + 4 := by
    omega
  rw [h3]
  have h4 : (List.drop (1 : Int).toNat (60 :: 97 :: 112 :: 112 :: 45 :: (n ++ 47 :: 62 :: rest))) =
      (97 :: 112 :: 112 :: 45 :: n) ++ 47 :: 62 :: rest := by
    simp
  rw [h4]
  have h5 : n.length + 4 = (97 :: 112 :: 112 :: 45 :: n).length := by simp
  rw [h5, List.take_left, htrim]

theorem getComponents_cons_ne (c : Nat) (rest : Str) (hc : c ≠ 60) :
    getComponents (c :: rest) = getComponents rest := by
  cases rest with
  | nil => rfl
  | cons d r => rw [getComponents, lt_eq, if_neg hc]

theorem getComponents_lt_cons (d : Nat) (rest2 : Str) (hd : d ≠ 47) :
    getComponents (60 :: d :: rest2) =
      (readTagName (60 :: d :: rest2)).bind fun tag =>
        if HasPrefix tag (bytes "app-") then
          (getComponents rest2).map (fun cs => tag.drop 4 :: cs)
        else getComponents rest2 := by
  rw [getComponents, lt_eq, slash_eq]
  simp only [hd, if_true, ne_eq, not_false_eq_true]

theorem getComponents_skip (s rest : Str) (h : 60 ∉ s) :
    getComponents (s ++ rest) = getComponents rest := by
  induction s with
  | nil => rfl
  | cons c s ih =>
    have hc : c ≠ 60 := fun e => h (e ▸ List.mem_cons_self _ _)
    have hs : 60 ∉ s := fun e => h (List.mem_cons_of_mem _ e)
    rw [List.cons_append, getComponents_cons_ne c _ hc, ih hs]

theorem getComponents_refTag (n rest : Str) (hn : NameOK n) :
    getComponents (60 :: 97 :: 112 :: 112 :: 45 :: (n ++ 47 :: 62 :: rest)) =
      (getComponents rest).map (fun cs => n :: cs) := by
  have hskip : getComponents (112 :: 112 :: 45 :: (n ++ 47 :: 62 :: rest)) =
      getComponents rest := by
    have := getComponents_skip (112 :: 112 :: 45 :: (n ++ [47, 62])) rest (by
      simp only [List.mem_cons, List.mem_append, not_or]
      refine ⟨by decide, by decide, by decide, hn.1, by decide, by decide, by simp⟩)
    simpa using this
  rw [getComponents_lt_cons 97 _ (by decide), readTagName_refTag n rest hn]
  simp [HasPrefix, appDash_eq, List.isPrefixOf, hskip]
/-! ## Theorems: the cycle check -/

/-- A mapping whose edges all go down a rank has no component on a cycle. -/
theorem acyclic_of_rank (m : Dependencies) (rank : Str → Nat)
    (h : ∀ a b, DependsOn m a b → rank b < rank a) : ∀ c, ¬ OnCycle m c := by
  have key : ∀ a b, Relation.TransGen (DependsOn m) a b → rank b < rank a := by
    intro a b hab
    induction hab with
    | single hab => exact h _ _ hab
    | tail _ hbc ih => exact lt_trans (h _ _ hbc) ih
  intro c hc
  exact lt_irrefl _ (key c c hc)

/-- C2: on a direct-dependency mapping in which every referenced name is a discovered
component and no component reaches itself along one or more dependency edges, the cycle
check of `validateComponents` returns the nil error and logs (flags) no component. -/
theorem checkCircularDependencies_acyclic (m : Dependencies) (hwf : mapWF m)
    (hall : AllDiscovered m) (hacyc : ∀ c, ¬ OnCycle m c) :
    checkCircularDependencies m = Outcome.ok (none, []) := by
  unfold checkCircularDependencies
  rw [checkLoop_acyclic m hwf hall hacyc m (fun _ he => he) true []]
  rfl

/-- C2 at the mapping `a -> b`, `b` without dependencies. -/
theorem checkCircularDependencies_acyclic_witness :
    mapWF chain2 ∧ AllDiscovered chain2 ∧ (∀ c, ¬ OnCycle chain2 c) ∧
      checkCircularDependencies chain2 = Outcome.ok (none, []) := by
  have hwf : mapWF chain2 := by unfold mapWF chain2; decide
  have hall : AllDiscovered chain2 := by
    intro c s d hcs hd
    simp only [chain2, List.mem_cons, Prod.mk.injEq, List.mem_nil_iff, or_false] at hcs
    rcases hcs with ⟨rfl, rfl⟩ | ⟨rfl, rfl⟩
    · simp only [List.mem_singleton] at hd
      subst hd
      decide
    · simp at hd
  have hacyc : ∀ c, ¬ OnCycle chain2 c := by
    apply acyclic_of_rank chain2 (fun x => if x = (bytes "a") then 1 else 0)
    rintro a b ⟨s, hs, hb⟩
    simp only [chain2, mapGet] at hs
    split_ifs at hs with h1 h2
    · simp only [Option.some.injEq] at hs
      subst hs
      simp only [List.mem_singleton] at hb
      subst hb h1
      decide
    · simp only [Option.some.injEq] at hs
      subst hs
      simp at hb
  exact ⟨hwf, hall, hacyc, checkCircularDependencies_acyclic chain2 hwf hall hacyc⟩

/-- C1, the code at a failing input: in the ring `a -> b -> c -> a` every referenced name is
a discovered component and `a` reaches itself in three steps, yet the cycle check returns the
nil error and flags nothing. -/
theorem checkCircularDependencies_ring3 :
    mapWF ring3 ∧ AllDiscovered ring3 ∧ OnCycle ring3 (bytes "a") ∧
      checkCircularDependencies ring3 = Outcome.ok (none, []) := by
  refine ⟨by unfold mapWF ring3; decide, ?_, ?_, by decide⟩
  · intro c s d hcs hd
    simp only [ring3, List.mem_cons, Prod.mk.injEq, List.mem_nil_iff, or_false] at hcs
    rcases hcs with ⟨rfl, rfl⟩ | ⟨rfl, rfl⟩ | ⟨rfl, rfl⟩ <;>
    · simp only [List.mem_singleton] at hd
      subst hd
      decide
  · have hab : DependsOn ring3 (bytes "a") (bytes "b") := ⟨⟨[(bytes "b")]⟩, by decide, by simp⟩
    have hbc : DependsOn ring3 (bytes "b") (bytes "c") := ⟨⟨[(bytes "c")]⟩, by decide, by simp⟩
    have hca : DependsOn ring3 (bytes "c") (bytes "a") := ⟨⟨[(bytes "a")]⟩, by decide, by simp⟩
    exact Relation.TransGen.tail (Relation.TransGen.tail (Relation.TransGen.single hab) hbc) hca

/-- C10, the code at a failing input: `a` refers to `b` and no component `b` was discovered;
`dependencies["b"]` is the nil pointer and the cycle check panics in `ShallowCopy`, where the
same mapping with `b` added as a component without dependencies passes. -/
theorem checkCircularDependencies_dangling :
    mapGet danglingDeps (bytes "b") = none ∧
      checkCircularDependencies danglingDeps = Outcome.panic ∧
      checkCircularDependencies (danglingDeps ++ [((bytes "b"), NewSet)]) = Outcome.ok (none, []) := by
  decide
/-! ## Theorems: the tag scanner -/

theorem not_infix_of_not_mem (sub s : Str) (b : Nat) (hb : b ∈ sub) (hs : b ∉ s) :
    ¬ sub <:+: s := by
  rintro ⟨x, y, hxy⟩
  exact hs (by rw [← hxy]; exact List.mem_append_left _ (List.mem_append_right _ hb))

theorem nameOK_foo : NameOK (bytes "foo") :=
  ⟨by decide, not_infix_of_not_mem _ _ 47 (by decide) (by decide), by decide, by decide⟩

theorem nameOK_bar : NameOK (bytes "bar") :=
  ⟨by decide, not_infix_of_not_mem _ _ 47 (by decide) (by decide), by decide, by decide⟩

/-- C5: for a line `s0 ++ <app-n1/> ++ s1 ++ ... ++ <app-nk/> ++ sk` (any `k ≥ 0`) whose names
contain no `<`, no `/>` and no white space at either end and whose separators contain no `<`,
`getComponents` returns exactly `[n1, ..., nk]`: prefix stripped, in order of occurrence,
duplicates kept. -/
theorem getComponents_lineOf (s0 : Str) (refs : List (Str × Str)) (h0 : '<'.toNat ∉ s0)
    (h : ∀ r ∈ refs, NameOK r.1 ∧ '<'.toNat ∉ r.2) :
    getComponents (lineOf s0 refs) = some (refs.map Prod.fst) := by
  unfold lineOf
  rw [getComponents_skip s0 _ h0]
  induction refs with
  | nil => rfl
  | cons r refs ih =>
    obtain ⟨n, s⟩ := r
    have hr := h (n, s) (List.mem_cons_self _ _)
    have ih1 := ih (fun r hr => h r (List.mem_cons_of_mem _ hr))
    have hshape : (List.map (fun r => refTag r.1 ++ r.2) ((n, s) :: refs)).flatten =
        60 :: 97 :: 112 :: 112 :: 45 :: (n ++ 47 :: 62 ::
          (s ++ (List.map (fun r => refTag r.1 ++ r.2) refs).flatten)) := by
      simp [refTag, ltAppDash_eq, slashGt_eq]
    rw [hshape, getComponents_refTag n _ hr.1, getComponents_skip s _ hr.2, ih1]
    rfl

/-- C5 at the line `x<app-foo/> y <app-bar/><app-foo/>z`. -/
theorem getComponents_lineOf_witness :
    getComponents (bytes "x<app-foo/> y <app-bar/><app-foo/>z") =
      some [(bytes "foo"), (bytes "bar"), (bytes "foo")] := by
  have := getComponents_lineOf (bytes "x")
    [((bytes "foo"), (bytes " y ")), ((bytes "bar"), []), ((bytes "foo"), (bytes "z"))]
    (by decide) (by
      intro r hr
      simp only [List.mem_cons, List.mem_nil_iff, or_false] at hr
      rcases hr with rfl | rfl | rfl
      · exact ⟨nameOK_foo, by decide⟩
      · exact ⟨nameOK_bar, by decide⟩
      · exact ⟨nameOK_foo, by decide⟩)
  exact this
/-! ## Theorems: the component expander -/

theorem getComponentHtml_succ (fs : FileSystem) (n : Nat) (component : Str) (lineNumber : Int)
    (w : World) :
    getComponentHtml fs (n + 1) component lineNumber w =
      match mapGet w.CACHED_HTML component with
      | some html => .ok (html, w)
      | none =>
        match fs.Open (component ++ (bytes ".html")) w.opened.length with
        | none =>
          .ok ([], { w with log := w.log ++ [LogMsg.missingComponent component lineNumber] })
        | some content =>
          match expandLines (processLineWith (getComponentHtml fs n)) (scanLines content) 0 []
              { w with opened := w.opened ++ [component ++ (bytes ".html")] } with
          | .ok (html, w1) =>
            .ok (html, { w1 with CACHED_HTML := (component, html) :: w1.CACHED_HTML })
          | .panic => .panic
          | .fuel => .fuel := by
  rfl

theorem FileSystem.Open_of_files_none (fs : FileSystem) (name : Str) (nOpen : Nat)
    (h : fs.files name = none) : fs.Open name nOpen = none := by
  unfold FileSystem.Open
  split
  · exact h
  · rfl

/-- C8: for a component that is not in the cache and has no fragment file in the components
directory, `getComponentHtml` returns normally (no panic, whatever recursion budget is left)
with the empty string; the only change of state is one missing-fragment diagnostic, naming
the component and the line, appended to the log; the cache and the list of opened files are
unchanged. -/
theorem getComponentHtml_missing (fs : FileSystem) (n : Nat) (component : Str)
    (lineNumber : Int) (w : World) (hcache : mapGet w.CACHED_HTML component = none)
    (hfile : fs.files (component ++ (bytes ".html")) = none) :
    getComponentHtml fs (n + 1) component lineNumber w =
      Outcome.ok ([], ⟨w.CACHED_HTML,
        w.log ++ [LogMsg.missingComponent component lineNumber], w.opened⟩) := by
  rw [getComponentHtml_succ, hcache, FileSystem.Open_of_files_none fs _ _ hfile]

/-- C8 at the component `bar` of a directory that holds only `foo.html`. -/
theorem getComponentHtml_missing_witness :
    getComponentHtml fooStore 1 (bytes "bar") 7 World.init =
      Outcome.ok ([], ⟨[], [LogMsg.missingComponent (bytes "bar") 7], []⟩) :=
  getComponentHtml_missing fooStore 0 (bytes "bar") 7 World.init (by decide) (by decide)

/-- C9: when a call of `getComponentHtml` for a component returns `html`, a second call for
the same component in the state the first one left returns `html` again, opens and reads no
file and leaves the cache as it is.  The second call changes nothing at all, except when
`os.Open` failed in the first: nothing was cached then, `os.Open` fails again and the
diagnostic is logged a second time. -/
theorem getComponentHtml_twice (fs : FileSystem) (n k : Nat) (component : Str)
    (line1 line2 : Int) (w w1 : World) (html : Str)
    (h : getComponentHtml fs n component line1 w = Outcome.ok (html, w1)) :
    ∃ w2, getComponentHtml fs (k + 1) component line2 w1 = Outcome.ok (html, w2) ∧
      w2.CACHED_HTML = w1.CACHED_HTML ∧ w2.opened = w1.opened ∧
      (w2 = w1 ∨ (fs.Open (component ++ (bytes ".html")) w1.opened.length = none ∧ html = [] ∧
        w2.log = w1.log ++ [LogMsg.missingComponent component line2])) := by
  cases n with
  | zero => simp [getComponentHtml] at h
  | succ n =>
    rw [getComponentHtml_succ] at h
    rw [getComponentHtml_succ]
    cases hc : mapGet w.CACHED_HTML component with
    | some cached =>
      rw [hc] at h
      simp only [Outcome.ok.injEq, Prod.mk.injEq] at h
      obtain ⟨rfl, rfl⟩ := h
      rw [hc]
      exact ⟨w, rfl, rfl, rfl, Or.inl rfl⟩
    | none =>
      rw [hc] at h
      cases hf : fs.Open (component ++ (bytes ".html")) w.opened.length with
      | none =>
        rw [hf] at h
        simp only [Outcome.ok.injEq, Prod.mk.injEq] at h
        obtain ⟨rfl, rfl⟩ := h
        refine ⟨⟨w.CACHED_HTML, (w.log ++ [LogMsg.missingComponent component line1]) ++
          [LogMsg.missingComponent component line2], w.opened⟩, ?_, rfl, rfl,
          Or.inr ⟨hf, rfl, rfl⟩⟩
        simp only [hc, hf]
      | some content =>
        rw [hf] at h
        simp only at h
        split at h
        · rename_i html1 w3 _
          simp only [Outcome.ok.injEq, Prod.mk.injEq] at h
          obtain ⟨rfl, rfl⟩ := h
          simp only [mapGet, if_true]
          exact ⟨_, rfl, rfl, rfl, Or.inl rfl⟩
        · simp at h
        · simp at h

/-- C9 at the component `foo`, first expanded from its file `foo.html`. -/
theorem getComponentHtml_twice_witness :
    getComponentHtml fooStore 1 (bytes "foo") 0 World.init =
        Outcome.ok ((bytes "X"), ⟨[((bytes "foo"), (bytes "X"))], [], [(bytes "foo.html")]⟩) ∧
      ∃ w2, getComponentHtml fooStore 1 (bytes "foo") 3
          ⟨[((bytes "foo"), (bytes "X"))], [], [(bytes "foo.html")]⟩ = Outcome.ok ((bytes "X"), w2) ∧
        w2.CACHED_HTML = [((bytes "foo"), (bytes "X"))] ∧ w2.opened = [(bytes "foo.html")] := by
  refine ⟨by decide, ?_⟩
  obtain ⟨w2, h1, h2, h3, -⟩ :=
    getComponentHtml_twice fooStore 1 0 (bytes "foo") 0 3 World.init _ _
      (show getComponentHtml fooStore 1 (bytes "foo") 0 World.init =
        Outcome.ok ((bytes "X"), ⟨[((bytes "foo"), (bytes "X"))], [], [(bytes "foo.html")]⟩) by decide)
  exact ⟨w2, h1, h2, h3⟩

/-- With `foo.html` holding the line `X`, and one more file that can be opened, the
component `foo` expands to `X` and is cached. -/
theorem getComponentHtml_foo (fs : FileSystem) (n : Nat) (l : Int) (w : World)
    (hc : mapGet w.CACHED_HTML (bytes "foo") = none)
    (hf : fs.Open (bytes "foo.html") w.opened.length = some (bytes "X\n")) :
    getComponentHtml fs (n + 1) (bytes "foo") l w =
      Outcome.ok ((bytes "X"),
        ⟨((bytes "foo"), (bytes "X")) :: w.CACHED_HTML, w.log, w.opened ++ [(bytes "foo.html")]⟩) := by
  have hname : (bytes "foo") ++ (bytes ".html") = (bytes "foo.html") := by decide
  have hlines : scanLines (bytes "X\n") = [(bytes "X")] := by decide
  have hg : getComponents (bytes "X") = some [] := by decide
  rw [getComponentHtml_succ, hc, hname, hf]
  dsimp only
  rw [hlines]
  simp only [expandLines, processLineWith, hg]
  rfl

/-- C3, the code at a failing input: with `foo.html` holding the line `X`, the line
`a<app-foo/>b` is expanded to `aX`; the text `b` behind the tag is lost. -/
theorem processLine_drops_rest (n : Nat) :
    processLine fooStore (n + 1) (bytes "a<app-foo/>b") 0 World.init =
      Outcome.ok ((bytes "aX"), ⟨[((bytes "foo"), (bytes "X"))], [], [(bytes "foo.html")]⟩) := by
  have h1 := getComponentHtml_foo fooStore n 0 World.init (by decide) (by decide)
  have hg : getComponents (bytes "a<app-foo/>b") = some [(bytes "foo")] := by decide
  have hi : Index (bytes "a<app-foo/>b") ((bytes "<app-") ++ (bytes "foo") ++ (bytes "/>")) = 1 := by
    decide
  have hs1 : slice (bytes "a<app-foo/>b") 0 1 = some (bytes "a") := by decide
  have hs2 : slice (bytes "a<app-foo/>b")
      (1 + (((bytes "<app-") ++ (bytes "foo") ++ (bytes "/>")).length : Int))
      (((bytes "a<app-foo/>b").length : Nat) : Int) = some (bytes "b") := by decide
  unfold processLine processLineWith
  rw [hg]
  simp only [List.length_singleton, gt_iff_lt, Nat.lt_one_iff, if_true, substituteLoop, hi]
  simp only [Int.reduceLT, if_false, hs1, h1, hs2]
  rfl

theorem expandLines_single_panic (pl : Str → Int → World → Outcome (Str × World))
    (line html : Str) (k : Int) (w : World) (h : pl line k w = Outcome.panic) :
    expandLines pl [line] k html w = Outcome.panic := by
  simp [expandLines, h]

/-- When the tag literal of the first name `getComponents` returns does not occur in the
line, `processLine` panics as soon as the expansion of that name has returned: the slice
`line[componentIndex+len(componentTag):]` starts behind the end of the line. -/
theorem processLineWith_not_found (expand : Str → Int → World → Outcome (Str × World))
    (line c : Str) (cs : List Str) (l : Int) (w w1 : World) (html : Str)
    (hg : getComponents line = some (c :: cs))
    (hi : Index line ((bytes "<app-") ++ c ++ (bytes "/>")) = -1)
    (hx : expand c l w = Outcome.ok (html, w1)) :
    processLineWith expand line l w = Outcome.panic := by
  have hlen : 1 ≤ line.length := by
    cases line with
    | nil => simp [getComponents] at hg
    | cons x xs => simp
  have hs1 : slice line 0 ((line.length : Int) - 1) =
      some ((line.drop 0).take (((line.length : Int) - 1).toNat - (0 : Int).toNat)) := by
    unfold slice
    rw [if_pos (by omega)]
    rfl
  have hs2 : slice line ((line.length : Int) - 1 +
      ((((bytes "<app-") ++ c ++ (bytes "/>")).length : Nat) : Int)) (line.length : Int) = none := by
    unfold slice
    rw [if_neg]
    simp only [List.length_append, ltAppDash_eq, slashGt_eq, List.length_cons,
      List.length_nil]
    omega
  unfold processLineWith
  rw [hg]
  simp only [List.length_cons, gt_iff_lt, Nat.zero_lt_succ, if_true, substituteLoop, hi]
  simp only [Int.reduceNeg, Int.reduceLT, if_true, hs1, hx, hs2]

/-- C4, the code at a failing input: for the fragments `a.html = <app-foo />` (a blank before
`/>`) and `foo.html = X`, `validateComponents` gathers `a -> foo` and returns the nil error,
and the expansion of `a` from the empty cache returns no string: with any budget for two or
more nested calls it panics on the slice behind the tag that is not found.  (The recursion
itself is bounded on every file system, see `getComponentHtml_terminates`.) -/
theorem validateComponents_passes_expansion_panics :
    gatherDependencies blankTagStore blankTagFiles [] 0 =
        Outcome.ok (some [((bytes "a"), ⟨[(bytes "foo")]⟩), ((bytes "foo"), ⟨[]⟩)]) ∧
      validateComponents (some blankTagFiles) blankTagStore = Outcome.ok (none, []) ∧
      ∀ n, getComponentHtml blankTagStore (n + 2) (bytes "a") 0 World.init = Outcome.panic := by
  refine ⟨by decide, by decide, ?_⟩
  intro n
  have hname : (bytes "a") ++ (bytes ".html") = (bytes "a.html") := by decide
  have hopen : blankTagStore.Open (bytes "a.html") World.init.opened.length =
      some (bytes "<app-foo />\n") := by decide
  have hlines : scanLines (bytes "<app-foo />\n") = [(bytes "<app-foo />")] := by decide
  have hg : getComponents (bytes "<app-foo />") = some [(bytes "foo")] := by decide
  have hi : Index (bytes "<app-foo />") ((bytes "<app-") ++ (bytes "foo") ++ (bytes "/>")) = -1 := by
    decide
  have h1 := getComponentHtml_foo blankTagStore n 0
    ⟨World.init.CACHED_HTML, World.init.log, World.init.opened ++ [(bytes "a.html")]⟩
    (by decide) (by decide)
  have hc : mapGet World.init.CACHED_HTML (bytes "a") = none := by decide
  rw [getComponentHtml_succ, hc, hname, hopen]
  dsimp only
  rw [hlines, expandLines_single_panic _ _ _ _ _
      (processLineWith_not_found _ (bytes "<app-foo />") (bytes "foo") [] 0 _ _ _ hg hi h1)]

/-! ## Theorems: the recursion of the expander is bounded by the open files -/

theorem substituteLoop_bounded (expand : Str → Int → World → Outcome (Str × World)) (k : Nat)
    (hb : Bounded expand k) (l : Int) :
    ∀ (cs : List Str) (line ret : Str) (w : World), k ≤ w.opened.length →
      substituteLoop expand l cs line ret w ≠ Outcome.fuel ∧
      ∀ html w1, substituteLoop expand l cs line ret w = Outcome.ok (html, w1) →
        w.opened.length ≤ w1.opened.length := by
  intro cs
  induction cs with
  | nil =>
    intro line ret w _
    refine ⟨by simp [substituteLoop], ?_⟩
    intro html w1 h
    simp only [substituteLoop, Outcome.ok.injEq, Prod.mk.injEq] at h
    rw [← h.2]
  | cons c cs ih =>
    intro line ret w hk
    obtain ⟨hnf, hmono⟩ := hb c l w hk
    simp only [substituteLoop]
    split
    · exact ⟨by simp, by intro html w1 h; simp at h⟩
    · split
      · rename_i html0 w0 hx
        have h0 := hmono html0 w0 hx
        split
        · exact ⟨by simp, by intro html w1 h; simp at h⟩
        · rename_i line1 _
          obtain ⟨h1, h2⟩ := ih line1 (ret ++ (_ ++ html0)) w0 (le_trans hk h0)
          exact ⟨h1, fun html w1 h => le_trans h0 (h2 html w1 h)⟩
      · exact ⟨by simp, by intro html w1 h; simp at h⟩
      · rename_i hx
        exact absurd hx hnf

theorem processLineWith_bounded (expand : Str → Int → World → Outcome (Str × World)) (k : Nat)
    (hb : Bounded expand k) : Bounded (processLineWith expand) k := by
  intro line l w hk
  unfold processLineWith
  split
  · exact ⟨by simp, by intro html w1 h; simp at h⟩
  · split
    · exact substituteLoop_bounded expand k hb l _ line [] w hk
    · refine ⟨by simp, ?_⟩
      intro html w1 h
      simp only [Outcome.ok.injEq, Prod.mk.injEq] at h
      rw [← h.2]

theorem expandLines_bounded (pl : Str → Int → World → Outcome (Str × World)) (k : Nat)
    (hb : Bounded pl k) :
    ∀ (lines : List Str) (l : Int) (html0 : Str) (w : World), k ≤ w.opened.length →
      expandLines pl lines l html0 w ≠ Outcome.fuel ∧
      ∀ html w1, expandLines pl lines l html0 w = Outcome.ok (html, w1) →
        w.opened.length ≤ w1.opened.length := by
  intro lines
  induction lines with
  | nil =>
    intro l html0 w _
    refine ⟨by simp [expandLines], ?_⟩
    intro html w1 h
    simp only [expandLines, Outcome.ok.injEq, Prod.mk.injEq] at h
    rw [← h.2]
  | cons line lines ih =>
    intro l html0 w hk
    obtain ⟨hnf, hmono⟩ := hb line l w hk
    simp only [expandLines]
    split
    · rename_i s w0 hx
      have h0 := hmono s w0 hx
      obtain ⟨h1, h2⟩ := ih (l + 1) (html0 ++ s) w0 (le_trans hk h0)
      exact ⟨h1, fun html w1 h => le_trans h0 (h2 html w1 h)⟩
    · exact ⟨by simp, by intro html w1 h; simp at h⟩
    · rename_i hx
      exact absurd hx hnf

/-- With a budget of `n + 1` nested calls, `getComponentHtml` does not run out of budget in
any state in which all but at most `n` of the files that can be open are open, and it closes
no file. -/
theorem getComponentHtml_bounded (fs : FileSystem) :
    ∀ (n k : Nat), fs.limit ≤ n + k → Bounded (getComponentHtml fs (n + 1)) k := by
  intro n
  induction n with
  | zero =>
    intro k hlim c l w hk
    rw [getComponentHtml_succ]
    split
    · refine ⟨by simp, ?_⟩
      intro html w1 h
      simp only [Outcome.ok.injEq, Prod.mk.injEq] at h
      rw [← h.2]
    · have hopen : fs.Open (c ++ (bytes ".html")) w.opened.length = none := by
        unfold FileSystem.Open
        rw [if_neg (by omega)]
      rw [hopen]
      refine ⟨by simp, ?_⟩
      intro html w1 h
      simp only [Outcome.ok.injEq, Prod.mk.injEq] at h
      rw [← h.2]
  | succ m ih =>
    intro k hlim c l w hk
    rw [getComponentHtml_succ]
    split
    · refine ⟨by simp, ?_⟩
      intro html w1 h
      simp only [Outcome.ok.injEq, Prod.mk.injEq] at h
      rw [← h.2]
    · split
      · refine ⟨by simp, ?_⟩
        intro html w1 h
        simp only [Outcome.ok.injEq, Prod.mk.injEq] at h
        rw [← h.2]
      · rename_i content _
        have hb := processLineWith_bounded _ _ (ih (w.opened.length + 1) (by omega))
        obtain ⟨h1, h2⟩ := expandLines_bounded _ _ hb (scanLines content) 0 []
          ⟨w.CACHED_HTML, w.log, w.opened ++ [c ++ (bytes ".html")]⟩ (by simp)
        split
        · rename_i html1 w2 hx
          refine ⟨by simp, ?_⟩
          intro html w1 h
          simp only [Outcome.ok.injEq, Prod.mk.injEq] at h
          rw [← h.2]
          have := h2 html1 w2 hx
          simp only [List.length_append, List.length_singleton] at this
          simp only
          omega
        · exact ⟨by simp, by intro html w1 h; simp at h⟩
        · rename_i hx
          exact absurd hx h1

/-- The recursion of the expander is bounded on every file system, whether or not the cycle
check passes: from a state with no file open, a budget of `fs.limit + 1` nested calls or more
is never used up; the call returns or panics. -/
theorem getComponentHtml_terminates (fs : FileSystem) (n : Nat) (component : Str)
    (lineNumber : Int) (hn : fs.limit ≤ n) :
    getComponentHtml fs (n + 1) component lineNumber World.init ≠ Outcome.fuel :=
  (getComponentHtml_bounded fs n 0 (by omega) component lineNumber World.init
    (Nat.zero_le _)).1

/-- The bound at the ring `a -> b -> c -> a`, with 1024 files that can be open. -/
theorem getComponentHtml_terminates_witness :
    getComponentHtml ring3Store 1025 (bytes "a") 0 World.init ≠ Outcome.fuel :=
  getComponentHtml_terminates ring3Store 1024 (bytes "a") 0 (by decide)

/-- What bounds the recursion on the ring `a -> b -> c -> a`, which passes the cycle check:
with three files that can be open, the fourth nested call fails to open `a.html`, logs the
missing-fragment diagnostic and returns the empty text, and `c`, `b` and `a` are cached as
empty. -/
theorem getComponentHtml_ring3_ends :
    validateComponents (some ring3Files) ring3StoreSmall = Outcome.ok (none, []) ∧
      getComponentHtml ring3StoreSmall 4 (bytes "a") 0 World.init =
        Outcome.ok ([], ⟨[((bytes "a"), []), ((bytes "b"), []), ((bytes "c"), [])],
          [LogMsg.missingComponent (bytes "a") 0],
          [(bytes "a.html"), (bytes "b.html"), (bytes "c.html")]⟩) := by
  decide
/-! ## Theorems: the pretty printer -/

theorem indentation_natCast (d : Nat) : indentation (d : Int) = List.replicate (4 * d) 32 := by
  unfold indentation
  simp only [Int.toNat_ofNat]
  induction d with
  | zero => rfl
  | succ d ih =>
    rw [List.replicate_succ, List.flatten_cons, ih, Nat.mul_succ, Nat.add_comm,
      List.replicate_add]
    rfl

theorem Nested.length_eq {d : Nat} {toks : List Token} {ds : List Nat}
    (h : Nested d toks ds) : ds.length = toks.length := by
  induction h with
  | nil => rfl
  | text d t rest ds ht hb hrest ih => simp [ih]
  | element d s e inner rest di dr hs he hid hsb heb hinner hrest ih1 ih2 =>
    simp [ih1, ih2]

/-- Inside `d` open elements every token of a well-formed sequence has depth at least `d`. -/
theorem Nested.le_depth {d : Nat} {toks : List Token} {ds : List Nat}
    (h : Nested d toks ds) : ∀ x ∈ ds, d ≤ x := by
  induction h with
  | nil => simp
  | text d t rest ds ht hb hrest ih =>
    intro x hx
    rcases List.mem_cons.mp hx with rfl | hx
    · exact le_rfl
    · exact ih x hx
  | element d s e inner rest di dr hs he hid hsb heb hinner hrest ih1 ih2 =>
    intro x hx
    simp only [List.mem_cons, List.mem_append] at hx
    rcases hx with rfl | hx | rfl | hx
    · exact le_rfl
    · exact Nat.le_of_succ_le (ih1 x hx)
    · exact le_rfl
    · exact ih2 x hx

theorem prettifyToken_text (d : Nat) (tags : Stack Nat) (out : Str) (t : Token)
    (ht : t.tt = TokenType.TextToken) (hb : TrimSpace t.String ≠ []) :
    prettifyToken ⟨d, d, tags, out⟩ t = ⟨d, d, tags, out ++ tokenLine d t⟩ := by
  simp [prettifyToken, hb, ht, tokenLine, indentation_natCast]

theorem prettifyToken_start (d : Nat) (tags : Stack Nat) (out : Str) (s : Token)
    (hs : s.tt = TokenType.StartTagToken) (hb : TrimSpace s.String ≠ []) :
    prettifyToken ⟨d, d, tags, out⟩ s =
      ⟨((d + 1 : Nat) : Int), ((d + 1 : Nat) : Int), tags ++ [s.DataAtom],
        out ++ tokenLine d s⟩ := by
  simp [prettifyToken, hb, hs, tokenLine, indentation_natCast, Stack.Push]

theorem prettifyToken_end (d : Nat) (tags : Stack Nat) (out : Str) (e : Token) (atom : Nat)
    (he : e.tt = TokenType.EndTagToken) (hid : e.DataAtom = atom)
    (hb : TrimSpace e.String ≠ []) :
    prettifyToken ⟨((d + 1 : Nat) : Int), ((d + 1 : Nat) : Int), tags ++ [atom], out⟩ e =
      ⟨d, d, tags, out ++ tokenLine d e⟩ := by
  simp [prettifyToken, hb, he, hid, tokenLine, indentation_natCast, Stack.Peek, Stack.Pop,
    Stack.IsEmpty]

/-- The loop on a well-formed sequence, from depth `d` with any stack and any text already
written: each token is written at its nesting depth, and stack and depth are restored. -/
theorem prettifyLoop_nested {d : Nat} {toks : List Token} {ds : List Nat}
    (h : Nested d toks ds) : ∀ (tags : Stack Nat) (out : Str) (more : List Token),
    prettifyLoop ⟨d, d, tags, out⟩ (toks ++ more) =
      prettifyLoop ⟨d, d, tags, out ++ (List.zipWith tokenLine ds toks).flatten⟩ more := by
  induction h with
  | nil => intro tags out more; simp
  | text d t rest ds ht hb hrest ih =>
    intro tags out more
    have hne : t.tt ≠ TokenType.ErrorToken := by rw [ht]; decide
    rw [List.cons_append, prettifyLoop, if_neg hne, prettifyToken_text d tags out t ht hb, ih]
    simp
  | element d s e inner rest di dr hs he hid hsb heb hinner hrest ih1 ih2 =>
    intro tags out more
    have hns : s.tt ≠ TokenType.ErrorToken := by rw [hs]; decide
    have hne : e.tt ≠ TokenType.ErrorToken := by rw [he]; decide
    have hlen := Nested.length_eq hinner
    rw [List.cons_append, prettifyLoop, if_neg hns, prettifyToken_start d tags out s hs hsb,
      List.append_assoc, ih1, List.cons_append, prettifyLoop, if_neg hne,
      prettifyToken_end d tags _ e s.DataAtom he hid heb, ih2]
    rw [List.zipWith_cons_cons, List.zipWith_append _ _ _ _ _ hlen]
    simp

/-- C6: on a well-formed token sequence (start and end tags properly nested with equal
identifiers, non-blank text anywhere) `PrettifyHtml` writes one line per token, each indented
by four blanks times the number of elements open around the token (`ds`, fixed by `Nested`:
a start tag and its end tag at the same depth `d`, what lies between them deeper, the
outermost tokens at depth 0), ends with the empty tag stack and logs no unclosed tag. -/
theorem PrettifyHtml_nested (toks : List Token) (ds : List Nat) (h : Nested 0 toks ds) :
    (PrettifyHtml toks true true).outputFile = (List.zipWith tokenLine ds toks).flatten ∧
      (prettifyLoop ⟨0, 0, [], []⟩ toks).tags = [] ∧
      (PrettifyHtml toks true true).tags = [] ∧
      (PrettifyHtml toks true true).log = [] := by
  have key := prettifyLoop_nested h [] [] []
  simp only [List.append_nil, Nat.cast_zero, List.nil_append] at key
  have hloop : prettifyLoop ⟨0, 0, [], []⟩ toks =
      ⟨0, 0, [], (List.zipWith tokenLine ds toks).flatten⟩ := by
    rw [key]; rfl
  unfold PrettifyHtml
  rw [hloop]
  simp [Stack.IsEmpty]

/-- C6 at `<a><b>text</b></a>`: the depths are 0, 1, 2, 1, 0. -/
theorem PrettifyHtml_nested_witness :
    Nested 0 nestedTokens [0, 1, 2, 1, 0] ∧
      (PrettifyHtml nestedTokens true true).outputFile =
        (bytes "<a>\n    <b>\n        text\n    </b>\n</a>\n") ∧
      (PrettifyHtml nestedTokens true true).tags = [] := by
  have hn : Nested 0 nestedTokens [0, 1, 2, 1, 0] := by
    have hinner2 : Nested 2 [mkToken .TextToken 0 "text" "text"] [2] :=
      Nested.text 2 _ [] [] rfl (by decide) (Nested.nil 2)
    have hinner1 : Nested 1 [mkToken .StartTagToken 0x101 "b" "<b>",
        mkToken .TextToken 0 "text" "text", mkToken .EndTagToken 0x101 "b" "</b>"] [1, 2, 1] :=
      Nested.element 1 (mkToken .StartTagToken 0x101 "b" "<b>")
        (mkToken .EndTagToken 0x101 "b" "</b>") _ [] [2] [] rfl rfl rfl (by decide) (by decide)
        hinner2 (Nested.nil 1)
    exact Nested.element 0 (mkToken .StartTagToken 0x1 "a" "<a>")
      (mkToken .EndTagToken 0x1 "a" "</a>") _ [] [1, 2, 1] [] rfl rfl rfl (by decide) (by decide)
      hinner1 (Nested.nil 0)
  have h := PrettifyHtml_nested nestedTokens [0, 1, 2, 1, 0] hn
  refine ⟨hn, ?_, h.2.2.1⟩
  rw [h.1]
  decide

/-- C7, the code at a failing input: after the tokens of `<a><b>text` two tags are on the
stack at end of stream, and `PrettifyHtml` logs one unclosed-tag warning only, for the top
`b`; for `<a><b>text</b>` it logs the one warning for `a`.  Neither run is fatal. -/
theorem PrettifyHtml_two_open_one_warning :
    (prettifyLoop ⟨0, 0, [], []⟩ twoOpenTokens).tags = [0x1, 0x101] ∧
      (PrettifyHtml twoOpenTokens true true).log = [LogMsg.unclosedTag (some 0x101)] ∧
      (PrettifyHtml twoOpenTokens true true).fatal = false ∧
      (PrettifyHtml oneOpenTokens true true).log = [LogMsg.unclosedTag (some 0x1)] ∧
      (PrettifyHtml oneOpenTokens true true).fatal = false := by
  decide
/-! ## Further properties of the code -/

/-- The inner loop panics as soon as one of the names it looks up is not a key. -/
theorem updateWithDependencies_none (m : Dependencies) (ds : List Str) (acc : Set) (d : Str)
    (hd : d ∈ ds) (hnone : mapGet m d = none) : updateWithDependencies m ds acc = none := by
  induction ds generalizing acc with
  | nil => simp at hd
  | cons e ds ih =>
    unfold updateWithDependencies
    cases he : mapGet m e with
    | none => rfl
    | some dset =>
      rcases List.mem_cons.mp hd with rfl | hd1
      · rw [hnone] at he; cases he
      · exact ih _ hd1

theorem checkLoop_dangling (m : Dependencies) (entries : List (Str × Set)) (c d : Str) (s : Set)
    (hcs : (c, s) ∈ entries) (hd : d ∈ s.set) (hnone : mapGet m d = none)
    (valid : Bool) (log : List LogMsg) : checkLoop m entries valid log = Outcome.panic := by
  induction entries generalizing valid log with
  | nil => simp at hcs
  | cons e entries ih =>
    obtain ⟨c1, s1⟩ := e
    unfold checkLoop
    cases hu : updateWithDependencies m s1.Values s1.ShallowCopy with
    | none => rfl
    | some r =>
      rcases List.mem_cons.mp hcs with heq | hcs1
      · simp only [Prod.mk.injEq] at heq
        obtain ⟨rfl, rfl⟩ := heq
        rw [updateWithDependencies_none m s.Values s.ShallowCopy d hd hnone] at hu
        cases hu
      · simp only
        split
        · exact ih hcs1 _ _
        · exact ih hcs1 _ _

/-- Whenever some component refers to a name that is not a key of the mapping, the cycle
check of `validateComponents` panics (nil dereference in `ShallowCopy`). -/
theorem checkCircularDependencies_panics (m : Dependencies) (c d : Str) (s : Set)
    (hcs : (c, s) ∈ m) (hd : d ∈ s.set) (hnone : mapGet m d = none) :
    checkCircularDependencies m = Outcome.panic := by
  unfold checkCircularDependencies
  rw [checkLoop_dangling m m c d s hcs hd hnone]

/-- The panic at the mapping `a -> b` without a component `b`. -/
theorem checkCircularDependencies_panics_witness :
    checkCircularDependencies [((bytes "a"), ⟨[(bytes "b")]⟩)] = Outcome.panic :=
  checkCircularDependencies_panics [((bytes "a"), ⟨[(bytes "b")]⟩)] (bytes "a") (bytes "b")
    ⟨[(bytes "b")]⟩ (by simp) (by simp [Set.set]) (by decide)

/-- What the loop over the entries computes when every referenced name is a key: it flags
exactly the entries whose component is among its own dependencies or among the dependencies
of one of them, and `valid` stays true only if none is flagged. -/
theorem checkLoop_flags (m : Dependencies) (hwf : mapWF m) (hall : AllDiscovered m)
    (entries : List (Str × Set)) (hsub : ∀ e ∈ entries, e ∈ m) (valid : Bool)
    (log : List LogMsg) :
    ∃ more, checkLoop m entries valid log = Outcome.ok (valid && decide (more = []), log ++ more) ∧
      ∀ msg, msg ∈ more ↔ ∃ c s, (c, s) ∈ entries ∧ msg = LogMsg.selfDependent c ∧
        (DependsOn m c c ∨ ∃ d, DependsOn m c d ∧ DependsOn m d c) := by
  induction entries generalizing valid log with
  | nil => exact ⟨[], by simp [checkLoop], by simp⟩
  | cons e entries ih =>
    obtain ⟨c, s⟩ := e
    have hcs : (c, s) ∈ m := hsub _ (List.mem_cons_self _ _)
    have hget : mapGet m c = some s := mapGet_of_mem m hwf c s hcs
    have hsub1 : ∀ e ∈ entries, e ∈ m := fun e he => hsub e (List.mem_cons_of_mem _ he)
    obtain ⟨r, hr, hmem⟩ := updateWithDependencies_some m s.Values s.ShallowCopy
      (fun d hd => hall c s d hcs hd)
    have hflag : r.Contains c = true ↔
        (DependsOn m c c ∨ ∃ d, DependsOn m c d ∧ DependsOn m d c) := by
      simp only [Set.Contains, decide_eq_true_eq, hmem, Set.mem_ShallowCopy]
      constructor
      · rintro (h1 | ⟨d, hd, h1⟩)
        · exact Or.inl ⟨s, hget, h1⟩
        · exact Or.inr ⟨d, ⟨s, hget, hd⟩, h1⟩
      · rintro (⟨s1, hs1, h1⟩ | ⟨d, ⟨s1, hs1, hd⟩, h1⟩)
        · rw [hget] at hs1; cases hs1; exact Or.inl h1
        · rw [hget] at hs1; cases hs1; exact Or.inr ⟨d, hd, h1⟩
    by_cases hc : r.Contains c = true
    · obtain ⟨more, hmore, hiff⟩ := ih hsub1 false (log ++ [LogMsg.selfDependent c])
      refine ⟨LogMsg.selfDependent c :: more, ?_, ?_⟩
      · simp only [checkLoop, hr, hc, if_true, hmore]
        simp
      · intro msg
        simp only [List.mem_cons, hiff]
        constructor
        · rintro (rfl | ⟨c1, s1, h1, h2, h3⟩)
          · exact ⟨c, s, Or.inl rfl, rfl, hflag.mp hc⟩
          · exact ⟨c1, s1, Or.inr h1, h2, h3⟩
        · rintro ⟨c1, s1, h1 | h1, h2, h3⟩
          · simp only [Prod.mk.injEq] at h1
            obtain ⟨rfl, rfl⟩ := h1
            exact Or.inl h2
          · exact Or.inr ⟨c1, s1, h1, h2, h3⟩
    · obtain ⟨more, hmore, hiff⟩ := ih hsub1 valid log
      refine ⟨more, ?_, ?_⟩
      · simp only [checkLoop, hr, hc, hmore]
        simp
      · intro msg
        simp only [List.mem_cons, hiff]
        constructor
        · rintro ⟨c1, s1, h1, h2, h3⟩
          exact ⟨c1, s1, Or.inr h1, h2, h3⟩
        · rintro ⟨c1, s1, h1 | h1, h2, h3⟩
          · simp only [Prod.mk.injEq] at h1
            obtain ⟨rfl, rfl⟩ := h1
            exact absurd (hflag.mpr h3) hc
          · exact ⟨c1, s1, h1, h2, h3⟩

/-- On a mapping in which every referenced name is a discovered component, the cycle check
returns, and it flags a component exactly when the component depends on itself directly or
through one intermediate component (a cycle of length 1 or 2); it returns the
circular-dependency error exactly when some component is flagged. -/
theorem checkCircularDependencies_two_levels (m : Dependencies) (hwf : mapWF m)
    (hall : AllDiscovered m) :
    ∃ log, checkCircularDependencies m =
        Outcome.ok (if log = [] then none else some GoError.circular, log) ∧
      ∀ c, LogMsg.selfDependent c ∈ log ↔
        (mapGet m c).isSome = true ∧
          (DependsOn m c c ∨ ∃ d, DependsOn m c d ∧ DependsOn m d c) := by
  obtain ⟨more, hmore, hiff⟩ := checkLoop_flags m hwf hall m (fun _ he => he) true []
  refine ⟨more, ?_, ?_⟩
  · unfold checkCircularDependencies
    rw [hmore]
    by_cases h : more = [] <;> simp [h]
  · intro c
    rw [hiff]
    constructor
    · rintro ⟨c1, s1, h1, h2, h3⟩
      simp only [LogMsg.selfDependent.injEq] at h2
      subst h2
      exact ⟨by rw [mapGet_of_mem m hwf c s1 h1]; rfl, h3⟩
    · rintro ⟨h1, h3⟩
      obtain ⟨s, hs⟩ := Option.isSome_iff_exists.mp h1
      exact ⟨c, s, mapGet_mem m c s hs, rfl, h3⟩

/-- The two-level check at the mapping `a -> b`, `b` without dependencies. -/
theorem checkCircularDependencies_two_levels_witness :
    ∃ log, checkCircularDependencies chain2 =
        Outcome.ok (if log = [] then none else some GoError.circular, log) ∧
      ∀ c, LogMsg.selfDependent c ∈ log ↔
        (mapGet chain2 c).isSome = true ∧
          (DependsOn chain2 c c ∨ ∃ d, DependsOn chain2 c d ∧ DependsOn chain2 d c) := by
  apply checkCircularDependencies_two_levels chain2
  · unfold mapWF chain2; decide
  · intro c s d hcs hd
    simp only [chain2, List.mem_cons, Prod.mk.injEq, List.mem_nil_iff, or_false] at hcs
    rcases hcs with ⟨rfl, rfl⟩ | ⟨rfl, rfl⟩
    · simp only [List.mem_singleton] at hd
      subst hd
      decide
    · simp at hd

/-- At end of stream `PrettifyHtml` logs nothing when the tag stack is empty and otherwise
exactly one warning, for the top of the stack, which it pops; the run is fatal only when the
rename fails. -/
theorem PrettifyHtml_eof (toks : List Token) (renameOk : Bool) :
    (PrettifyHtml toks true renameOk).log =
        (match (prettifyLoop ⟨0, 0, [], []⟩ toks).tags.getLast? with
         | none => []
         | some t => [LogMsg.unclosedTag (some t)]) ∧
      (PrettifyHtml toks true renameOk).tags = (prettifyLoop ⟨0, 0, [], []⟩ toks).tags.dropLast ∧
      (PrettifyHtml toks true renameOk).fatal = !renameOk := by
  unfold PrettifyHtml
  cases h : (prettifyLoop ⟨0, 0, [], []⟩ toks).tags with
  | nil => simp [h, Stack.IsEmpty]
  | cons a l =>
    obtain ⟨t, ht⟩ : ∃ t, (a :: l).getLast? = some t :=
      ⟨_, List.getLast?_eq_getLast _ (List.cons_ne_nil a l)⟩
    simp [h, Stack.IsEmpty, Stack.Pop, ht]

theorem indexOf_append (c : Nat) (sub pre rest : Str) (h : c ∉ pre) :
    indexOf (c :: sub) (pre ++ (c :: sub) ++ rest) = some pre.length := by
  induction pre with
  | nil =>
    have hp : List.isPrefixOf (c :: sub) (c :: (sub ++ rest)) = true := by
      rw [List.isPrefixOf_iff_prefix]
      exact List.prefix_append (c :: sub) rest
    rw [List.nil_append, List.cons_append, indexOf, hp]
    rfl
  | cons d pre ih =>
    have hd : c ≠ d := fun e => h (e ▸ List.mem_cons_self _ _)
    have hp : List.isPrefixOf (c :: sub) (d :: (pre ++ (c :: sub) ++ rest)) = false := by
      simp [List.isPrefixOf, hd]
    rw [List.cons_append, List.cons_append, indexOf, hp,
      ih (fun e => h (List.mem_cons_of_mem _ e))]
    simp

theorem slice_left (a b : Str) : slice (a ++ b) 0 (a.length : Int) = some a := by
  unfold slice
  have h : (0 : Int) ≤ 0 ∧ (0 : Int) ≤ (a.length : Int) ∧
      (a.length : Int) ≤ ((a ++ b).length : Int) := by
    simp only [List.length_append]
    omega
  rw [if_pos h]
  simp

theorem slice_right (a b : Str) (i : Int) (hi : i = (a.length : Int)) :
    slice (a ++ b) i ((a ++ b).length : Int) = some b := by
  subst hi
  unfold slice
  have h : (0 : Int) ≤ (a.length : Int) ∧ (a.length : Int) ≤ ((a ++ b).length : Int) ∧
      ((a ++ b).length : Int) ≤ ((a ++ b).length : Int) := by
    simp only [List.length_append]
    omega
  rw [if_pos h]
  have h1 : ((a ++ b).length : Int).toNat - (a.length : Int).toNat = b.length := by
    simp only [List.length_append]
    omega
  rw [h1]
  simp

/-- What `processLine` does on a line with one reference tag, `pre ++ <app-NAME/> ++ post`
(no `<` in `pre` and `post`, `NAME` admitted by the syntax): when the expansion of `NAME`
returns `html`, the line becomes `pre ++ html`; the text `post` is not part of the result. -/
theorem processLine_single (fs : FileSystem) (k : Nat) (pre n post html : Str)
    (lineNumber : Int) (w w1 : World) (hpre : 60 ∉ pre) (hn : NameOK n) (hpost : 60 ∉ post)
    (hexp : getComponentHtml fs k n lineNumber w = Outcome.ok (html, w1)) :
    processLine fs k (pre ++ refTag n ++ post) lineNumber w = Outcome.ok (pre ++ html, w1) := by
  have hg : getComponents (pre ++ refTag n ++ post) = some [n] := by
    have hshape : pre ++ refTag n ++ post =
        pre ++ (60 :: 97 :: 112 :: 112 :: 45 :: (n ++ 47 :: 62 :: post)) := by
      simp [refTag, ltAppDash_eq, slashGt_eq]
    have hp : getComponents post = some [] := by
      have := getComponents_skip post [] hpost
      simpa [getComponents] using this
    rw [hshape, getComponents_skip pre _ hpre, getComponents_refTag n post hn, hp]
    rfl
  have htag : (bytes "<app-") ++ n ++ (bytes "/>") = refTag n := rfl
  have hi : Index (pre ++ refTag n ++ post) (refTag n) = (pre.length : Int) := by
    unfold Index
    have : refTag n = 60 :: (97 :: 112 :: 112 :: 45 :: (n ++ [47, 62])) := by
      simp [refTag, ltAppDash_eq, slashGt_eq]
    rw [this, indexOf_append 60 _ pre post hpre]
  have hnot : ¬ ((pre.length : Int) < 0) := by omega
  have hs1 : slice (pre ++ refTag n ++ post) 0 (pre.length : Int) = some pre := by
    rw [List.append_assoc]
    exact slice_left pre _
  have hs2 : slice (pre ++ refTag n ++ post) ((pre.length : Int) + ((refTag n).length : Int))
      ((pre ++ refTag n ++ post).length : Int) = some post :=
    slice_right (pre ++ refTag n) post _ (by simp)
  unfold processLine processLineWith
  rw [hg]
  simp only [List.length_singleton, gt_iff_lt, Nat.lt_one_iff, if_true, substituteLoop, htag,
    hi, hnot, if_false, hs1, hexp, hs2, List.nil_append]

/-- The line `a<app-foo/>b` with `foo.html` holding `X` becomes `aX`. -/
theorem processLine_single_witness :
    processLine fooStore 1 ((bytes "a") ++ refTag (bytes "foo") ++ (bytes "b")) 0 World.init =
      Outcome.ok ((bytes "a") ++ (bytes "X"),
        ⟨[((bytes "foo"), (bytes "X"))], [], [(bytes "foo.html")]⟩) := by
  exact processLine_single fooStore 1 (bytes "a") (bytes "foo") (bytes "b") (bytes "X") 0
    World.init _ (by decide) nameOK_foo (by decide) (by decide)
/-! ## Theorems: the pretty printer on arbitrary token sequences -/

theorem Stack.Peek_eq {α : Type} (s : Stack α) : Stack.Peek s = s.getLast? := by
  cases s with
  | nil => rfl
  | cons a l => simp [Stack.Peek, Stack.IsEmpty]

theorem Stack.Pop_snd {α : Type} (s : Stack α) : (Stack.Pop s).2 = s.dropLast := by
  cases s with
  | nil => rfl
  | cons a l => simp [Stack.Pop, Stack.IsEmpty]

theorem prettifyToken_blank (p : Printer) (tok : Token) (hb : tok.blank = true) :
    prettifyToken p tok = p := by
  have h : TrimSpace tok.String = [] := by simpa [Token.blank] using hb
  simp [prettifyToken, h]

theorem prettifyToken_other (d : Nat) (tags : Stack Nat) (out : Str) (tok : Token)
    (hb : TrimSpace tok.String ≠ []) (hs : tok.tt ≠ TokenType.StartTagToken)
    (he : ¬ (tok.tt = TokenType.EndTagToken ∧ tags.getLast? = some tok.DataAtom)) :
    prettifyToken ⟨d, d, tags, out⟩ tok = ⟨d, d, tags, out ++ tokenLine d tok⟩ := by
  have he1 : ¬ (tok.tt = TokenType.EndTagToken ∧ some tok.DataAtom = Stack.Peek tags) := by
    rw [Stack.Peek_eq]
    intro h
    exact he ⟨h.1, h.2.symm⟩
  simp only [prettifyToken, hb, ne_eq, not_false_eq_true, if_true, hs, false_and, if_false, he1]
  simp [tokenLine, indentation_natCast]

/-- From a state whose two depth counters equal the height of the tag stack, the loop of
`PrettifyHtml` does what the printer of the specification does. -/
theorem prettifyLoop_spec (toks : List Token) (hne : ∀ t ∈ toks, t.tt ≠ TokenType.ErrorToken) :
    ∀ (st : Stack Nat) (out : Str),
    prettifyLoop ⟨(st.length : Int), (st.length : Int), st, out⟩ toks =
      ⟨((specStack st toks).length : Int), ((specStack st toks).length : Int), specStack st toks,
        out ++ (List.zipWith tokenLine (specDepths st toks)
          (toks.filter (fun t => !t.blank))).flatten⟩ := by
  induction toks with
  | nil => intro st out; simp [prettifyLoop, specStack, specDepths]
  | cons tok toks ih =>
    intro st out
    have hne1 : tok.tt ≠ TokenType.ErrorToken := hne tok (List.mem_cons_self _ _)
    have ih1 := ih (fun t ht => hne t (List.mem_cons_of_mem _ ht))
    rw [prettifyLoop, if_neg hne1]
    by_cases hb : tok.blank = true
    · rw [prettifyToken_blank _ tok hb, ih1]
      simp [specStack, specDepths, hb]
    · have hb1 : TrimSpace tok.String ≠ [] := by simpa [Token.blank] using hb
      by_cases hs : tok.tt = TokenType.StartTagToken
      · rw [prettifyToken_start st.length st out tok hs hb1]
        have hlen : ((st.length + 1 : Nat) : Int) = ((st ++ [tok.DataAtom]).length : Int) := by
          simp
        rw [hlen, ih1]
        simp [specStack, specDepths, hb, hs]
      · by_cases he : tok.tt = TokenType.EndTagToken ∧ st.getLast? = some tok.DataAtom
        · obtain ⟨init, hst⟩ : ∃ init, st = init ++ [tok.DataAtom] :=
            ⟨st.dropLast, (List.dropLast_append_getLast? tok.DataAtom (by simpa using he.2)).symm⟩
          subst hst
          have hlen : ((init ++ [tok.DataAtom]).length : Int) = ((init.length + 1 : Nat) : Int) := by
            simp
          rw [hlen, prettifyToken_end init.length init out tok tok.DataAtom he.1 rfl hb1, ih1]
          simp [specStack, specDepths, hb, hs, he.1]
        · rw [prettifyToken_other st.length st out tok hb1 hs he, ih1]
          simp [specStack, specDepths, hb, hs, he]

theorem specDepths_length (toks : List Token) : ∀ st : Stack Nat,
    (specDepths st toks).length = (toks.filter (fun t => !t.blank)).length := by
  induction toks with
  | nil => intro st; rfl
  | cons tok toks ih =>
    intro st
    by_cases hb : tok.blank = true
    · simp [specDepths, hb, ih]
    · by_cases hs : tok.tt = TokenType.StartTagToken
      · simp [specDepths, hb, hs, ih]
      · by_cases he : tok.tt = TokenType.EndTagToken ∧ st.getLast? = some tok.DataAtom
        · simp [specDepths, hb, hs, he, ih]
        · simp [specDepths, hb, hs, he, ih]


/-- One step of the loop keeps both depth counters equal to the height of the tag stack. -/
theorem prettifyToken_invariant (st : Stack Nat) (out : Str) (tok : Token) :
    ∃ (st1 : Stack Nat) (out1 : Str),
      prettifyToken ⟨(st.length : Int), (st.length : Int), st, out⟩ tok =
        ⟨(st1.length : Int), (st1.length : Int), st1, out1⟩ := by
  by_cases hb : tok.blank = true
  · exact ⟨st, out, prettifyToken_blank _ tok hb⟩
  · have hb1 : TrimSpace tok.String ≠ [] := by simpa [Token.blank] using hb
    by_cases hs : tok.tt = TokenType.StartTagToken
    · refine ⟨st ++ [tok.DataAtom], out ++ tokenLine st.length tok, ?_⟩
      rw [prettifyToken_start st.length st out tok hs hb1]
      simp
    · by_cases he : tok.tt = TokenType.EndTagToken ∧ st.getLast? = some tok.DataAtom
      · obtain ⟨init, hst⟩ : ∃ init, st = init ++ [tok.DataAtom] :=
          ⟨st.dropLast, (List.dropLast_append_getLast? tok.DataAtom (by simpa using he.2)).symm⟩
        subst hst
        have hlen : ((init ++ [tok.DataAtom]).length : Int) = ((init.length + 1 : Nat) : Int) := by
          simp
        exact ⟨init, out ++ tokenLine init.length tok, by
          rw [hlen, prettifyToken_end init.length init out tok tok.DataAtom he.1 rfl hb1]⟩
      · exact ⟨st, out ++ tokenLine st.length tok, prettifyToken_other st.length st out tok hb1 hs he⟩

theorem prettifyLoop_invariant (toks : List Token) : ∀ (st : Stack Nat) (out : Str),
    ∃ (st1 : Stack Nat) (out1 : Str),
      prettifyLoop ⟨(st.length : Int), (st.length : Int), st, out⟩ toks =
        ⟨(st1.length : Int), (st1.length : Int), st1, out1⟩ := by
  induction toks with
  | nil => intro st out; exact ⟨st, out, rfl⟩
  | cons tok toks ih =>
    intro st out
    rw [prettifyLoop]
    by_cases he : tok.tt = TokenType.ErrorToken
    · rw [if_pos he]; exact ⟨st, out, rfl⟩
    · rw [if_neg he]
      obtain ⟨st1, out1, h1⟩ := prettifyToken_invariant st out tok
      rw [h1]
      exact ih st1 out1

/-- C11, as amended: for every token sequence the tokenizer yields before the end of the
stream, balanced or not, the text `PrettifyHtml` writes is the concatenation, in token order,
of one line per token whose `String()` is not blank: `4 * d` blanks, the text written for
the token (its `String()` trimmed, for a text token its `Data` trimmed), a newline, `d` being
the depth the printer of the specification has for that token.  Tokens whose `String()` is
blank contribute nothing and no other token is lost: there is one depth, hence one line, for
each of the others. -/
theorem PrettifyHtml_output (toks : List Token)
    (hne : ∀ t ∈ toks, t.tt ≠ TokenType.ErrorToken) (renameOk : Bool) :
    (PrettifyHtml toks true renameOk).outputFile =
        (List.zipWith tokenLine (specDepths [] toks)
          (toks.filter (fun t => !t.blank))).flatten ∧
      (specDepths [] toks).length = (toks.filter (fun t => !t.blank)).length := by
  have h := prettifyLoop_spec toks hne [] []
  simp only [List.length_nil, Nat.cast_zero, List.nil_append] at h
  refine ⟨?_, specDepths_length toks []⟩
  unfold PrettifyHtml
  simp only [h, if_true]
  split <;> rfl

/-- C11 as amended, at `<a> x</b></a>`, where the second token is blank and `</b>` matches nothing: four
lines are written, at the depths 0, 1, 1, 0. -/
theorem PrettifyHtml_output_witness :
    (PrettifyHtml mismatchedTokens true true).outputFile =
        (bytes "<a>\n    x\n    </b>\n</a>\n") ∧
      specDepths [] mismatchedTokens = [0, 1, 1, 0] := by
  have h := PrettifyHtml_output mismatchedTokens (by decide) true
  refine ⟨?_, by decide⟩
  rw [h.1]
  decide

/-- C11 as stated fails: the text token of `<a>&#13;</a>` is white space only (its data is a
carriage return), and it contributes a line, which holds the indentation and no text: the
token is judged blank or not by its `String()`, which is `&#13;`, and written by its data. -/
theorem PrettifyHtml_blank_line :
    TrimSpace (bytes "\r") = [] ∧ TrimSpace (bytes "&#13;") = (bytes "&#13;") ∧
      (PrettifyHtml carriageReturnTokens true true).outputFile = (bytes "<a>\n    \n</a>\n") := by
  decide

theorem prettifyLoop_append (a b : List Token)
    (hne : ∀ t ∈ a, t.tt ≠ TokenType.ErrorToken) :
    ∀ p : Printer, prettifyLoop p (a ++ b) = prettifyLoop (prettifyLoop p a) b := by
  induction a with
  | nil => intro p; rfl
  | cons t a ih =>
    intro p
    have h1 : t.tt ≠ TokenType.ErrorToken := hne t (List.mem_cons_self _ _)
    rw [List.cons_append, prettifyLoop, if_neg h1, prettifyLoop, if_neg h1,
      ih (fun t ht => hne t (List.mem_cons_of_mem _ ht))]

theorem prettifyLoop_snoc (toks : List Token) (tok : Token)
    (hne : ∀ t ∈ toks, t.tt ≠ TokenType.ErrorToken) (ht : tok.tt ≠ TokenType.ErrorToken)
    (p : Printer) :
    prettifyLoop p (toks ++ [tok]) = prettifyToken (prettifyLoop p toks) tok := by
  rw [prettifyLoop_append toks [tok] hne, prettifyLoop, if_neg ht, prettifyLoop]

/-- A step of the loop that makes the tag stack shorter is the step of an end tag whose
`DataAtom` is the top of the stack, and it removes the top. -/
theorem prettifyToken_pops (q : Printer) (t : Token)
    (hlt : (prettifyToken q t).tags.length < q.tags.length) :
    t.tt = TokenType.EndTagToken ∧ Stack.Peek q.tags = some t.DataAtom ∧
      (prettifyToken q t).tags = q.tags.dropLast := by
  by_cases hb : TrimSpace t.String = []
  · simp [prettifyToken, hb] at hlt
  · by_cases hs : t.tt = TokenType.StartTagToken
    · simp [prettifyToken, hb, hs, Stack.Push] at hlt
    · by_cases hm : t.tt = TokenType.EndTagToken ∧ some t.DataAtom = Stack.Peek q.tags
      · refine ⟨hm.1, hm.2.symm, ?_⟩
        simp [prettifyToken, hb, hs, hm, Stack.Pop_snd]
      · simp [prettifyToken, hb, hs, hm] at hlt

/-- The step of an end tag whose `DataAtom` is not the top of the tag stack, in any state. -/
theorem prettifyToken_unmatched_step (p : Printer) (tok : Token)
    (he : tok.tt = TokenType.EndTagToken)
    (hne : Stack.Peek p.tags ≠ some tok.DataAtom) :
    (prettifyToken p tok).tags = p.tags ∧
      (prettifyToken p tok).indentationLevel = p.indentationLevel ∧
      (prettifyToken p tok).outputFile =
        (if TrimSpace tok.String = [] then p.outputFile
         else p.outputFile ++ indentation p.currentIndentationLevel ++ TrimSpace tok.String ++
           ['\n'.toNat]) ∧
      (∀ txt : Token, txt.tt = TokenType.TextToken → txt.String = tok.String →
        txt.Data = tok.String → prettifyToken p txt = prettifyToken p tok) := by
  have hpeek : ¬ (some tok.DataAtom = Stack.Peek p.tags) := fun e => hne e.symm
  refine ⟨?_, ?_, ?_, ?_⟩
  · by_cases hb : TrimSpace tok.String = [] <;> simp [prettifyToken, hb, he, hpeek]
  · by_cases hb : TrimSpace tok.String = [] <;> simp [prettifyToken, hb, he, hpeek]
  · by_cases hb : TrimSpace tok.String = [] <;> simp [prettifyToken, hb, he, hpeek]
  · intro txt ht hs hd
    by_cases hb : TrimSpace tok.String = [] <;>
      simp [prettifyToken, hb, he, hpeek, ht, hs, hd]

/-- C17 as stated fails when the identifier of a tag is its name: in `<bar></foo>` the names
differ, `html/atom` knows neither, so both tokens have `DataAtom` 0; the end tag `</foo>`
pops the entry of `<bar>`, the depth goes from 1 to 0, `</foo>` is written at depth 0 and no
tag is reported unclosed. -/
theorem prettifyLoop_unknown_names_pop :
    (mkToken .StartTagToken 0 "bar" "<bar>").Data ≠ (mkToken .EndTagToken 0 "foo" "</foo>").Data ∧
      (prettifyLoop ⟨0, 0, [], []⟩ [mkToken .StartTagToken 0 "bar" "<bar>"]).tags = [0] ∧
      (prettifyLoop ⟨0, 0, [], []⟩ [mkToken .StartTagToken 0 "bar" "<bar>"]).indentationLevel
        = 1 ∧
      (prettifyLoop ⟨0, 0, [], []⟩ unknownTagTokens).tags = [] ∧
      (prettifyLoop ⟨0, 0, [], []⟩ unknownTagTokens).indentationLevel = 0 ∧
      (PrettifyHtml unknownTagTokens true true).outputFile = (bytes "<bar>\n</foo>\n") ∧
      (PrettifyHtml unknownTagTokens true true).log = [] := by
  decide

/-- C17, as amended (the identifier of a tag is its `DataAtom`, which is 0 for every name
`html/atom` does not know): in every state of the printer, an end tag whose `DataAtom` is not
the one on top of the tag stack (in particular one that arrives when the stack is empty)
leaves the tag stack and the nesting depth as they are and is written at the current depth
like a text token with the same text.  When the state is the one reached after a token
sequence `toks`, the current depth is the height of the stack: the end tag, appended to
`toks`, adds the line `tokenLine height tok` to the output (nothing when it is blank) and
changes nothing else.  And in every state, a step that makes the stack shorter is the step
of an end tag whose `DataAtom` is the top, and removes just the top. -/
theorem prettifyLoop_unmatched_end (p : Printer) (tok : Token)
    (he : tok.tt = TokenType.EndTagToken)
    (hne : Stack.Peek p.tags ≠ some tok.DataAtom) :
    ((prettifyToken p tok).tags = p.tags ∧
      (prettifyToken p tok).indentationLevel = p.indentationLevel ∧
      (prettifyToken p tok).outputFile =
        (if TrimSpace tok.String = [] then p.outputFile
         else p.outputFile ++ indentation p.currentIndentationLevel ++ TrimSpace tok.String ++
           ['\n'.toNat]) ∧
      (∀ txt : Token, txt.tt = TokenType.TextToken → txt.String = tok.String →
        txt.Data = tok.String → prettifyToken p txt = prettifyToken p tok)) ∧
      (∀ toks : List Token, (∀ t ∈ toks, t.tt ≠ TokenType.ErrorToken) →
        prettifyLoop ⟨0, 0, [], []⟩ toks = p →
          prettifyLoop ⟨0, 0, [], []⟩ (toks ++ [tok]) =
            { p with outputFile :=
                p.outputFile ++ (if tok.blank then [] else tokenLine p.tags.length tok) } ∧
          p.indentationLevel = (p.tags.length : Int) ∧
          p.currentIndentationLevel = (p.tags.length : Int)) ∧
      (∀ (q : Printer) (t : Token), (prettifyToken q t).tags.length < q.tags.length →
        t.tt = TokenType.EndTagToken ∧ Stack.Peek q.tags = some t.DataAtom ∧
          (prettifyToken q t).tags = q.tags.dropLast) := by
  refine ⟨prettifyToken_unmatched_step p tok he hne, ?_, prettifyToken_pops⟩
  intro toks hnerr hp
  have hterr : tok.tt ≠ TokenType.ErrorToken := by rw [he]; decide
  obtain ⟨st1, out1, h1⟩ := prettifyLoop_invariant toks [] []
  simp only [List.length_nil, Nat.cast_zero] at h1
  rw [prettifyLoop_snoc toks tok hnerr hterr, hp]
  rw [h1] at hp
  subst hp
  refine ⟨?_, rfl, rfl⟩
  by_cases hb : tok.blank = true
  · rw [prettifyToken_blank _ tok hb]
    simp [hb]
  · have hb1 : TrimSpace tok.String ≠ [] := by simpa [Token.blank] using hb
    have hs : tok.tt ≠ TokenType.StartTagToken := by rw [he]; decide
    have hm : ¬ (tok.tt = TokenType.EndTagToken ∧ st1.getLast? = some tok.DataAtom) := by
      intro h
      apply hne
      rw [Stack.Peek_eq]
      exact h.2
    rw [prettifyToken_other st1.length st1 out1 tok hb1 hs hm]
    simp [hb]

/-- C17 as amended, at the end tag `</b>` arriving after `<a>`, while `a` is the only open
tag: the stack and the depth stay, and `</b>` is written at depth 1. -/
theorem prettifyLoop_unmatched_end_witness :
    Stack.Peek (Printer.mk 1 1 [0x1] (bytes "<a>\n")).tags ≠ some 0x101 ∧
      (prettifyToken ⟨1, 1, [0x1], (bytes "<a>\n")⟩
        (mkToken .EndTagToken 0x101 "b" "</b>")).tags = [0x1] ∧
      prettifyLoop ⟨0, 0, [], []⟩
          [mkToken .StartTagToken 0x1 "a" "<a>", mkToken .EndTagToken 0x101 "b" "</b>"] =
        ⟨1, 1, [0x1], (bytes "<a>\n    </b>\n")⟩ := by
  have h := prettifyLoop_unmatched_end ⟨1, 1, [0x1], (bytes "<a>\n")⟩
    (mkToken .EndTagToken 0x101 "b" "</b>") rfl (by decide)
  refine ⟨by decide, h.1.1, ?_⟩
  have h2 := (h.2.1 [mkToken .StartTagToken 0x1 "a" "<a>"] (by decide) (by decide)).1
  rw [show [mkToken .StartTagToken 0x1 "a" "<a>", mkToken .EndTagToken 0x101 "b" "</b>"] =
    [mkToken .StartTagToken 0x1 "a" "<a>"] ++ [mkToken .EndTagToken 0x101 "b" "</b>"] from rfl,
    h2]
  decide

/-- C19: after any number of tokens the counter `indentationLevel` (and with it
`currentIndentationLevel`) equals the number of entries on the tag stack, so it is never
negative; and the branch of the loop that pops is only taken when the stack is not empty. -/
theorem prettifyLoop_depth_invariant (toks : List Token) :
    (prettifyLoop ⟨0, 0, [], []⟩ toks).indentationLevel =
        ((prettifyLoop ⟨0, 0, [], []⟩ toks).tags.length : Int) ∧
      (prettifyLoop ⟨0, 0, [], []⟩ toks).currentIndentationLevel =
        ((prettifyLoop ⟨0, 0, [], []⟩ toks).tags.length : Int) ∧
      0 ≤ (prettifyLoop ⟨0, 0, [], []⟩ toks).indentationLevel ∧
      0 ≤ (prettifyLoop ⟨0, 0, [], []⟩ toks).currentIndentationLevel ∧
      (∀ (q : Printer) (t : Token),
        t.tt = TokenType.EndTagToken ∧ some t.DataAtom = Stack.Peek q.tags →
          Stack.IsEmpty q.tags = false) := by
  obtain ⟨st1, out1, h⟩ := prettifyLoop_invariant toks [] []
  simp only [List.length_nil, Nat.cast_zero] at h
  rw [h]
  refine ⟨rfl, rfl, Int.natCast_nonneg _, Int.natCast_nonneg _, ?_⟩
  intro q t hm
  cases hq : q.tags with
  | nil => rw [hq] at hm; simp [Stack.Peek, Stack.IsEmpty] at hm
  | cons a l => simp [Stack.IsEmpty]
/-! ## Theorems: the comment stripper -/

theorem openComment_eq : (bytes "<!--") = [60, 33, 45, 45] := rfl
theorem closeComment_eq : (bytes "-->") = [45, 45, 62] := rfl

/-- When `indexOf` finds nothing, the pattern does not occur. -/
theorem indexOf_none (sub s : Str) (h : indexOf sub s = none) : ¬ sub <:+: s := by
  induction s with
  | nil =>
    intro hi
    have hs : sub = [] := List.eq_nil_of_infix_nil hi
    subst hs
    simp [indexOf] at h
  | cons c s ih =>
    rw [indexOf] at h
    split at h
    · cases h
    · rename_i hp
      have hs : indexOf sub s = none := by
        cases hx : indexOf sub s with
        | none => rfl
        | some k => rw [hx] at h; cases h
      intro hi
      rcases List.infix_cons_iff.mp hi with h1 | h1
      · exact hp (List.isPrefixOf_iff_prefix.mpr h1)
      · exact ih hs h1

/-- When `indexOf` returns `i`, the pattern occurs at `i` and nowhere before. -/
theorem indexOf_some (sub s : Str) (i : Nat) (h : indexOf sub s = some i) :
    ∃ pre rest, s = pre ++ sub ++ rest ∧ pre.length = i ∧
      ∀ a b, s = a ++ sub ++ b → i ≤ a.length := by
  induction s generalizing i with
  | nil =>
    rw [indexOf] at h
    split at h
    · rename_i hp
      have hs : sub = [] := List.eq_nil_of_prefix_nil (List.isPrefixOf_iff_prefix.mp hp)
      simp only [Option.some.injEq] at h
      subst h hs
      exact ⟨[], [], rfl, rfl, fun _ _ _ => Nat.zero_le _⟩
    · cases h
  | cons c s ih =>
    rw [indexOf] at h
    split at h
    · rename_i hp
      simp only [Option.some.injEq] at h
      subst h
      obtain ⟨t, ht⟩ := List.isPrefixOf_iff_prefix.mp hp
      exact ⟨[], t, by simpa using ht.symm, rfl, fun _ _ _ => Nat.zero_le _⟩
    · rename_i hp
      cases hx : indexOf sub s with
      | none => rw [hx] at h; cases h
      | some k =>
        rw [hx] at h
        simp only [Option.map_some', Option.some.injEq] at h
        subst h
        obtain ⟨pre, rest, hs, hlen, hmin⟩ := ih k hx
        refine ⟨c :: pre, rest, by rw [hs]; rfl, by simp [hlen], ?_⟩
        intro a b hab
        cases a with
        | nil =>
          exfalso
          apply hp
          rw [List.isPrefixOf_iff_prefix]
          exact ⟨b, by simpa using hab.symm⟩
        | cons x a =>
          simp only [List.cons_append, List.cons.injEq] at hab
          have := hmin a b hab.2
          simp only [List.length_cons]
          omega

/-- The text in front of the first occurrence of a non-empty pattern does not hold it. -/
theorem not_infix_before_first (sub pre rest : Str) (hsub : sub ≠ [])
    (hmin : ∀ a b, pre ++ sub ++ rest = a ++ sub ++ b → pre.length ≤ a.length) :
    ¬ sub <:+: pre := by
  rintro ⟨a, b, hab⟩
  have h1 := hmin a (b ++ sub ++ rest) (by rw [← hab]; simp)
  have h2 : pre.length = a.length + sub.length + b.length := by
    rw [← hab]; simp only [List.length_append]
  have h3 : 0 < sub.length := List.length_pos.mpr hsub
  omega

theorem indexOf_eq_none (sub s : Str) (h : ¬ sub <:+: s) : indexOf sub s = none := by
  cases hx : indexOf sub s with
  | none => rfl
  | some i =>
    obtain ⟨pre, rest, hs, -, -⟩ := indexOf_some sub s i hx
    exact absurd ⟨pre, rest, hs.symm⟩ h

/-- The first `-->` behind a text without `-->` is right behind it. -/
theorem indexOf_closeComment (body rest : Str) (h : ¬ [45, 45, 62] <:+: body) :
    indexOf [45, 45, 62] (body ++ 45 :: 45 :: 62 :: rest) = some body.length := by
  induction body with
  | nil => simp [indexOf]
  | cons c p ih =>
    have hp : ¬ [45, 45, 62] <:+: p :=
      fun hi => h (List.IsInfix.trans hi (List.infix_cons (List.infix_refl p)))
    have hpre : List.isPrefixOf [45, 45, 62] (c :: (p ++ 45 :: 45 :: 62 :: rest)) = false := by
      match p, h with
      | [], _ => simp [List.isPrefixOf]
      | [d], _ => simp [List.isPrefixOf]
      | d :: e :: p2, h =>
        by_contra hcon
        simp only [List.isPrefixOf, List.cons_append, Bool.and_true, Bool.not_eq_false,
          Bool.and_eq_true, beq_iff_eq] at hcon
        obtain ⟨rfl, rfl, rfl⟩ := hcon
        exact h ⟨[], p2, by simp⟩
    rw [List.cons_append, indexOf, hpre, ih hp]
    simp

theorem stripCommentsFrom_of_none (n : Nat) (s : Str)
    (h : indexOf (bytes "<!--") s = none) : stripCommentsFrom n s = s := by
  cases n with
  | zero => rfl
  | succ n => rw [stripCommentsFrom, h]

/-- C12: for a comment body without `-->` (newlines allowed) and a rest without `<!--`,
`stripComments` maps `<!--` ++ body ++ `-->` ++ rest to rest. -/
theorem stripComments_leading_comment (body rest : Str)
    (hbody : ¬ (bytes "-->") <:+: body) (hrest : ¬ (bytes "<!--") <:+: rest) :
    stripComments ((bytes "<!--") ++ body ++ (bytes "-->") ++ rest) = rest := by
  have hlen : ((bytes "<!--") ++ body ++ (bytes "-->") ++ rest).length =
      (body.length + rest.length + 6) + 1 := by
    simp [openComment_eq, closeComment_eq]
    omega
  have hopen : indexOf (bytes "<!--") ((bytes "<!--") ++ body ++ (bytes "-->") ++ rest) = some 0 := by
    have hp : List.isPrefixOf (bytes "<!--") (60 :: (33 :: 45 :: 45 :: (body ++ (bytes "-->") ++ rest)))
        = true := by
      rw [List.isPrefixOf_iff_prefix]
      exact ⟨body ++ (bytes "-->") ++ rest, by simp [openComment_eq]⟩
    have hs : (bytes "<!--") ++ body ++ (bytes "-->") ++ rest =
        60 :: (33 :: 45 :: 45 :: (body ++ (bytes "-->") ++ rest)) := by
      simp [openComment_eq]
    rw [hs, indexOf, hp]
    rfl
  have hdrop : List.drop (0 + 4) ((bytes "<!--") ++ body ++ (bytes "-->") ++ rest) =
      body ++ 45 :: 45 :: 62 :: rest := by
    simp [openComment_eq, closeComment_eq]
  have hclose : indexOf (bytes "-->") (body ++ 45 :: 45 :: 62 :: rest) = some body.length :=
    indexOf_closeComment body rest hbody
  have hdrop2 : List.drop (0 + 4 + body.length + 3)
      ((bytes "<!--") ++ body ++ (bytes "-->") ++ rest) = rest := by
    have : (bytes "<!--") ++ body ++ (bytes "-->") ++ rest =
        ((bytes "<!--") ++ body ++ (bytes "-->")) ++ rest := rfl
    rw [this, List.drop_left' (by simp [openComment_eq, closeComment_eq]; omega)]
  unfold stripComments
  rw [hlen, stripCommentsFrom, hopen]
  simp only [hdrop, hclose, hdrop2, List.take_zero, List.nil_append]
  exact stripCommentsFrom_of_none _ rest (indexOf_eq_none _ rest hrest)

/-- C12 at `<!-- x -->` followed by `<app-foo/>`, and at a comment of two lines. -/
theorem stripComments_leading_comment_witness :
    stripComments (bytes "<!-- x --><app-foo/>") = (bytes "<app-foo/>") ∧
      stripComments (bytes "<!-- x\n y --><app-foo/>") = (bytes "<app-foo/>") := by
  have hfoo : ¬ (bytes "<!--") <:+: (bytes "<app-foo/>") := by
    rintro ⟨a, b, hab⟩
    have hmem : 33 ∈ (bytes "<app-foo/>") := by rw [← hab]; simp [openComment_eq]
    revert hmem; decide
  have h1 : ¬ (bytes "-->") <:+: (bytes " x ") := by
    rintro ⟨a, b, hab⟩
    have hmem : 62 ∈ (bytes " x ") := by rw [← hab]; simp [closeComment_eq]
    revert hmem; decide
  have h2 : ¬ (bytes "-->") <:+: (bytes " x\n y ") := by
    rintro ⟨a, b, hab⟩
    have hmem : 62 ∈ (bytes " x\n y ") := by rw [← hab]; simp [closeComment_eq]
    revert hmem; decide
  exact ⟨stripComments_leading_comment (bytes " x ") (bytes "<app-foo/>") h1 hfoo,
    stripComments_leading_comment (bytes " x\n y ") (bytes "<app-foo/>") h2 hfoo⟩


theorem not_hasComment_of_no_open (s : Str) (h : ¬ (bytes "<!--") <:+: s) : ¬ HasComment s := by
  rintro ⟨a, b, c, habc⟩
  exact h ⟨a, b ++ (bytes "-->") ++ c, by rw [habc]; simp⟩

/-- With budget for every byte, the replacement loop cuts the comments out as `Strips`
describes. -/
theorem stripCommentsFrom_strips (n : Nat) : ∀ s : Str, s.length ≤ n →
    Strips s (stripCommentsFrom n s) := by
  induction n with
  | zero =>
    intro s hs
    have : s = [] := List.length_eq_zero.mp (Nat.le_zero.mp hs)
    subst this
    exact Strips.done [] (not_hasComment_of_no_open [] (by
      intro hi
      have := List.eq_nil_of_infix_nil hi
      simp [openComment_eq] at this))
  | succ n ih =>
    intro s hs
    rw [stripCommentsFrom]
    cases hopen : indexOf (bytes "<!--") s with
    | none => exact Strips.done s (not_hasComment_of_no_open s (indexOf_none _ s hopen))
    | some i =>
      obtain ⟨pre, rest1, hs1, hlen1, hmin1⟩ := indexOf_some _ s i hopen
      have hdrop : s.drop (i + 4) = rest1 := by
        have : s = (pre ++ (bytes "<!--")) ++ rest1 := hs1
        rw [this, List.drop_left' (by simp [openComment_eq, hlen1])]
      simp only [hdrop]
      cases hclose : indexOf (bytes "-->") rest1 with
      | none =>
        refine Strips.done s ?_
        rintro ⟨a, b, c, habc⟩
        have hia : i ≤ a.length := hmin1 a (b ++ (bytes "-->") ++ c) (by rw [habc]; simp)
        apply indexOf_none _ rest1 hclose
        rw [← hdrop]
        have hsplit : s = (a ++ (bytes "<!--") ++ b) ++ ((bytes "-->") ++ c) := by
          rw [habc]; simp
        have hle : i + 4 ≤ (a ++ (bytes "<!--") ++ b).length := by
          simp [openComment_eq]; omega
        rw [hsplit, List.drop_append_of_le_length hle]
        exact ⟨List.drop (i + 4) (a ++ (bytes "<!--") ++ b), c, by simp⟩
      | some j =>
        obtain ⟨body, rest2, hs2, hlen2, hmin2⟩ := indexOf_some _ rest1 j hclose
        have hs3 : s = pre ++ (bytes "<!--") ++ body ++ (bytes "-->") ++ rest2 := by
          rw [hs1, hs2]; simp
        have htake : s.take i = pre := by
          have : s = pre ++ ((bytes "<!--") ++ rest1) := by rw [hs1]; simp
          rw [this, List.take_left' hlen1]
        have hdrop2 : s.drop (i + 4 + j + 3) = rest2 := by
          have : s = (pre ++ (bytes "<!--") ++ body ++ (bytes "-->")) ++ rest2 := hs3
          rw [this, List.drop_left' (by simp [openComment_eq, closeComment_eq, hlen1, hlen2]; omega)]
        have hpre : ¬ (bytes "<!--") <:+: pre :=
          not_infix_before_first _ pre rest1 (by simp [openComment_eq])
            (fun a b hab => by rw [hlen1]; exact hmin1 a b (by rw [hs1]; exact hab))
        have hbody : ¬ (bytes "-->") <:+: body :=
          not_infix_before_first _ body rest2 (by simp [closeComment_eq])
            (fun a b hab => by rw [hlen2]; exact hmin2 a b (by rw [hs2]; exact hab))
        have hshort : rest2.length ≤ n := by
          have : s.length = pre.length + 4 + body.length + 3 + rest2.length := by
            rw [hs3]; simp [openComment_eq, closeComment_eq]; omega
          omega
        simp only [htake, hdrop2]
        have hcut := Strips.cut pre body rest2 _ hpre hbody (ih rest2 hshort)
        rw [← hs3] at hcut
        exact hcut

/-- C13, as amended: `stripComments` cuts the comments out in one pass from the left.  Each
comment cut out starts at the first `<!--` behind the previous one and ends at the first
`-->` behind that, the text in front of each is kept, and the text kept behind the last one
holds no comment.  The pieces kept are not searched again once joined. -/
theorem stripComments_strips (s : Str) : Strips s (stripComments s) :=
  stripCommentsFrom_strips s.length s (Nat.le_refl _)

/-- C13 as stated fails: from `<!<!-- a -->-- b -->` the comment `<!-- a -->` is cut out and
the text left, `<!-- b -->`, is a comment. -/
theorem stripComments_leaves_comment :
    stripComments (bytes "<!<!-- a -->-- b -->") = (bytes "<!-- b -->") ∧
      HasComment (stripComments (bytes "<!<!-- a -->-- b -->")) := by
  have h : stripComments (bytes "<!<!-- a -->-- b -->") = (bytes "<!-- b -->") := by decide
  refine ⟨h, ?_⟩
  rw [h]
  exact ⟨[], (bytes " b "), [], by decide⟩
/-! ## Theorems: the tag scanner on arbitrary lines -/

theorem getComponents_no_lt (s : Str) (h : 60 ∉ s) : getComponents s = some [] := by
  have := getComponents_skip s [] h
  simpa [getComponents] using this

theorem getComponents_lt_slash (rest : Str) :
    getComponents (60 :: 47 :: rest) = getComponents (47 :: rest) := by
  rw [getComponents]
  simp

/-- At the call site of `readTagName` the slice `tag[1:endIndex]` is always in range. -/
theorem readTagName_some (d : Nat) (rest : Str) :
    ∃ tag, readTagName (60 :: d :: rest) = some tag := by
  unfold readTagName Index
  cases hx : indexOf (bytes "/>") (60 :: d :: rest) with
  | none =>
    have h : (0 : Int) ≤ 1 ∧ (1 : Int) ≤ (((60 :: d :: rest).length : Nat) : Int) - 1 ∧
        (((60 :: d :: rest).length : Nat) : Int) - 1 ≤ (((60 :: d :: rest).length : Nat) : Int) := by
      simp only [List.length_cons]
      omega
    simp [slice, h]
  | some i =>
    obtain ⟨pre, rest1, hs, hlen, -⟩ := indexOf_some _ _ i hx
    have hi : 1 ≤ i ∧ i ≤ (60 :: d :: rest).length := by
      constructor
      · cases pre with
        | nil =>
          simp only [List.nil_append, slashGt_eq, List.cons_append, List.cons.injEq] at hs
          exact absurd hs.1 (by decide)
        | cons c pre => rw [← hlen]; simp
      · rw [← hlen, hs]; simp
    have h : (0 : Int) ≤ 1 ∧ (1 : Int) ≤ (i : Int) ∧
        (i : Int) ≤ (((60 :: d :: rest).length : Nat) : Int) := by
      omega
    have hneg : ¬ ((i : Int) < 0) := by omega
    simp only [hneg, if_false, slice, h, and_self, if_true, Option.map_some']
    exact ⟨_, rfl⟩

/-- `getComponents` returns on every line. -/
theorem getComponents_total (n : Nat) : ∀ s : Str, s.length ≤ n →
    ∃ l, getComponents s = some l := by
  induction n with
  | zero =>
    intro s hs
    have : s = [] := List.length_eq_zero.mp (Nat.le_zero.mp hs)
    subst this
    exact ⟨[], rfl⟩
  | succ n ih =>
    intro s hs
    match s, hs with
    | [], _ => exact ⟨[], rfl⟩
    | [_], _ => exact ⟨[], rfl⟩
    | c :: d :: rest2, hs =>
      have hs1 : (d :: rest2).length ≤ n := by
        simp only [List.length_cons] at hs ⊢; omega
      have hs2 : rest2.length ≤ n := by
        simp only [List.length_cons] at hs ⊢; omega
      by_cases hc : c = 60
      · subst hc
        by_cases hd : d = 47
        · subst hd
          rw [getComponents_lt_slash]
          exact ih _ hs1
        · obtain ⟨tag, htag⟩ := readTagName_some d rest2
          obtain ⟨l, hl⟩ := ih rest2 hs2
          rw [getComponents_lt_cons d rest2 hd, htag, Option.some_bind, hl]
          split
          · exact ⟨_, rfl⟩
          · exact ⟨_, rfl⟩
      · rw [getComponents_cons_ne c _ hc]
        exact ih _ hs1

/-- C14, as amended: on a line `pre ++ "<" ++ t` with no `<` in `pre`, `t` non-empty, not
starting with `/` and holding no `<` and no `/>` (an unterminated tag), the candidate tag
name is `t` without its last byte, trimmed: the last byte of the line is dropped, whether it
is a `>`, the last letter of the name or the last byte of a character of several bytes.
`getComponents` returns `[n]` when that name is `app-` ++ n and `[]` otherwise. -/
theorem getComponents_unterminated (pre t : Str) (hpre : '<'.toNat ∉ pre) (ht : t ≠ [])
    (hhead : t.head? ≠ some '/'.toNat) (hlt : '<'.toNat ∉ t) (hno : ¬ (bytes "/>") <:+: t) :
    getComponents (pre ++ '<'.toNat :: t) =
      some (if HasPrefix (TrimSpace t.dropLast) (bytes "app-")
        then [(TrimSpace t.dropLast).drop 4] else []) := by
  rw [lt_eq] at hpre hlt
  rw [slash_eq] at hhead
  rw [lt_eq]
  rw [getComponents_skip pre _ hpre]
  match t, ht, hhead, hlt, hno with
  | d :: t1, _, hhead, hlt, hno =>
    have hd : d ≠ 47 := fun e => hhead (by rw [e]; rfl)
    have hidx : indexOf (bytes "/>") (60 :: d :: t1) = none := by
      apply indexOf_eq_none
      intro hi
      rcases List.infix_cons_iff.mp hi with h1 | h1
      · obtain ⟨r, hr⟩ := h1
        simp only [slashGt_eq, List.cons_append, List.cons.injEq] at hr
        exact absurd hr.1 (by decide)
      · exact hno h1
    have hread : readTagName (60 :: d :: t1) = some (TrimSpace (d :: t1).dropLast) := by
      unfold readTagName Index
      rw [hidx]
      have h : (0 : Int) ≤ 1 ∧ (1 : Int) ≤ (((60 :: d :: t1).length : Nat) : Int) - 1 ∧
          (((60 :: d :: t1).length : Nat) : Int) - 1 ≤ (((60 :: d :: t1).length : Nat) : Int) := by
        simp only [List.length_cons]
        omega
      have hcount : ((((60 :: d :: t1).length : Nat) : Int) - 1).toNat - (1 : Int).toNat =
          (d :: t1).length - 1 := by
        simp only [List.length_cons]
        omega
      simp only [Int.reduceNeg, Int.reduceLT, if_true, slice, h, and_self, Option.map_some',
        hcount]
      rw [List.dropLast_eq_take]
      simp
    have hrest : getComponents t1 = some [] :=
      getComponents_no_lt t1 (fun h => hlt (List.mem_cons_of_mem _ h))
    rw [getComponents_lt_cons d t1 hd, hread, Option.some_bind, hrest]
    split <;> rfl

/-- C14 as amended, at the line `x<app-foo>`: the dropped byte is the `>`. -/
theorem getComponents_unterminated_witness :
    getComponents (bytes "x<app-foo>") = some [(bytes "foo")] := by
  have h := getComponents_unterminated (bytes "x") (bytes "app-foo>") (by decide) (by decide)
    (by decide) (by decide) (by
      rintro ⟨a, b, hab⟩
      have hmem : 47 ∈ (bytes "app-foo>") := by rw [← hab]; simp [slashGt_eq]
      revert hmem; decide)
  rw [show (bytes "x<app-foo>") = (bytes "x") ++ '<'.toNat :: (bytes "app-foo>") from rfl, h]
  decide

/-- C14 as stated fails: the trimmed text behind the `<` of `<app-foo` is `app-foo`, and
`getComponents` returns `fo`, not `foo`: the last byte of the line is dropped. -/
theorem getComponents_unterminated_drops_last :
    TrimSpace (bytes "app-foo") = (bytes "app-") ++ (bytes "foo") ∧
      getComponents (bytes "<app-foo") = some [(bytes "fo")] ∧
      getComponents (bytes "<app-foo") ≠ some [(bytes "foo")] := by
  decide

/-- The byte dropped from an unterminated tag can be half a character: on `<app-fé`, whose
`é` is the two bytes `c3 a9`, `getComponents` returns the name `f` followed by the byte
`c3`. -/
theorem getComponents_unterminated_multibyte :
    (bytes "<app-fé") = (bytes "<app-f") ++ [0xc3, 0xa9] ∧
      getComponents (bytes "<app-fé") = some [(bytes "f") ++ [0xc3]] := by
  decide

theorem getComponents_finds_bounded (n post : Str) (hn : NameOK n) (k : Nat) : ∀ pre : Str,
    pre.length ≤ k → pre.getLast? ≠ some 60 →
    ∃ l, getComponents (pre ++ refTag n ++ post) = some l ∧ n ∈ l := by
  have hshape : refTag n ++ post = 60 :: 97 :: 112 :: 112 :: 45 :: (n ++ 47 :: 62 :: post) := by
    simp [refTag, ltAppDash_eq, slashGt_eq]
  have hbase : ∃ l, getComponents (refTag n ++ post) = some l ∧ n ∈ l := by
    obtain ⟨l, hl⟩ := getComponents_total post.length post (Nat.le_refl _)
    rw [hshape, getComponents_refTag n post hn, hl]
    exact ⟨n :: l, rfl, List.mem_cons_self _ _⟩
  induction k with
  | zero =>
    intro pre hlen _
    have : pre = [] := List.length_eq_zero.mp (Nat.le_zero.mp hlen)
    subst this
    simpa using hbase
  | succ k ih =>
    intro pre hlen hlast
    match pre, hlen, hlast with
    | [], _, _ => simpa using hbase
    | [c], _, hlast =>
      have hc : c ≠ 60 := fun e => hlast (by rw [e]; rfl)
      rw [List.append_assoc, List.singleton_append, getComponents_cons_ne c _ hc]
      exact hbase
    | c :: d :: pre2, hlen, hlast =>
      have hlen1 : (d :: pre2).length ≤ k := by
        simp only [List.length_cons] at hlen ⊢; omega
      have hlen2 : pre2.length ≤ k := by
        simp only [List.length_cons] at hlen ⊢; omega
      have hlast1 : (d :: pre2).getLast? ≠ some 60 := by
        rwa [List.getLast?_cons_cons] at hlast
      have hlast2 : pre2.getLast? ≠ some 60 := by
        cases pre2 with
        | nil => simp
        | cons e pre3 => rwa [List.getLast?_cons_cons] at hlast1
      have hassoc : (c :: d :: pre2) ++ refTag n ++ post =
          c :: d :: (pre2 ++ refTag n ++ post) := by simp
      have hassoc1 : (d :: pre2) ++ refTag n ++ post = d :: (pre2 ++ refTag n ++ post) := by simp
      rw [hassoc]
      by_cases hc : c = 60
      · subst hc
        by_cases hd : d = 47
        · subst hd
          rw [getComponents_lt_slash, ← hassoc1]
          exact ih _ hlen1 hlast1
        · obtain ⟨tag, htag⟩ := readTagName_some d (pre2 ++ refTag n ++ post)
          obtain ⟨l, hl, hmem⟩ := ih pre2 hlen2 hlast2
          rw [getComponents_lt_cons d _ hd, htag, Option.some_bind, hl]
          split
          · exact ⟨_, rfl, List.mem_cons_of_mem _ hmem⟩
          · exact ⟨_, rfl, hmem⟩
      · rw [getComponents_cons_ne c _ hc, ← hassoc1]
        exact ih _ hlen1 hlast1

/-- C18, as amended: for every line and every place where `<app-NAME/>` occurs in it (the
name holding no `<`, no `/>` and no white space at either end), the name is among those
`getComponents` returns, provided the tag stands at the start of the line or behind a
byte other than `<`; the text around the tag is arbitrary. -/
theorem getComponents_finds (pre n post : Str) (hn : NameOK n)
    (hlast : pre.getLast? ≠ some '<'.toNat) :
    ∃ l, getComponents (pre ++ refTag n ++ post) = some l ∧ n ∈ l :=
  getComponents_finds_bounded n post hn pre.length pre (Nat.le_refl _) hlast

/-- C18 as amended, at the line `<b <i<app-foo/></b>`. -/
theorem getComponents_finds_witness :
    ∃ l, getComponents ((bytes "<b <i") ++ refTag (bytes "foo") ++ (bytes "</b>")) = some l ∧
      (bytes "foo") ∈ l :=
  getComponents_finds (bytes "<b <i") (bytes "foo") (bytes "</b>") nameOK_foo (by decide)

/-- C18 as stated fails: in the line `<<app-foo/>` the tag `<app-foo/>` occurs at position 1,
and `getComponents` returns no name: the first `<` starts a candidate and the inner `i++`
steps over the second. -/
theorem getComponents_misses_after_lt :
    (bytes "<<app-foo/>") = (bytes "<") ++ refTag (bytes "foo") ++ [] ∧
      getComponents (bytes "<<app-foo/>") = some [] := by
  decide
/-! ## Theorems: the directory listing, lines without references, slice bounds -/

/-- C15, the code at a failing input: with a file `a.js` next to `foo.html` the slice
`name[:len(name)-5]` is out of range for `a.js` and `validateComponents` panics, where the
listing restricted to `foo.html` passes. -/
theorem validateComponents_short_name :
    validateComponents (some jsAndFooFiles) fooStore = Outcome.panic ∧
      validateComponents (some [⟨(bytes "foo.html"), false⟩]) fooStore = Outcome.ok (none, []) := by
  decide

/-- The slice `name[:len(name)-5]` counts bytes: the name `é.js` has five of them, the slice
is in range (and empty), and the file is passed over as one without the suffix `.html`. -/
theorem validateComponents_five_byte_name :
    (bytes "é.js").length = 5 ∧
      validateComponents (some [⟨(bytes "é.js"), false⟩, ⟨(bytes "foo.html"), false⟩]) fooStore =
        Outcome.ok (none, []) := by
  decide

theorem processLine_no_reference (fs : FileSystem) (n : Nat) (line : Str) (lineNumber : Int)
    (w : World) (h : getComponents line = some []) :
    processLine fs n line lineNumber w = Outcome.ok (line, w) := by
  simp [processLine, processLineWith, h]

theorem expandLines_no_reference (fs : FileSystem) (n : Nat) (w : World) (lines : List Str)
    (h : ∀ l ∈ lines, getComponents l = some []) : ∀ (k : Int) (html : Str),
    expandLines (processLine fs n) lines k html w = Outcome.ok (html ++ lines.flatten, w) := by
  induction lines with
  | nil => intro k html; simp [expandLines]
  | cons l lines ih =>
    intro k html
    rw [expandLines, processLine_no_reference fs n l k w (h l (List.mem_cons_self _ _))]
    simp only
    rw [ih (fun x hx => h x (List.mem_cons_of_mem _ hx))]
    simp

theorem newline_eq : '\n'.toNat = 10 := rfl

/-- The scanner yields the lines of a text, each without its terminator, as long as every
line fits its buffer. -/
theorem scanLinesFrom_eq_rawLines (text : Str) : ∀ acc : Str,
    (∀ l ∈ rawLinesFrom acc text, l.length < MaxScanTokenSize) →
      scanLinesFrom acc text = (rawLinesFrom acc text).map dropCR := by
  induction text with
  | nil =>
    intro acc h
    by_cases ha : acc = []
    · simp [scanLinesFrom, rawLinesFrom, ha]
    · have hl : acc.length < MaxScanTokenSize := h acc (by simp [rawLinesFrom, ha])
      simp [scanLinesFrom, rawLinesFrom, ha, hl]
  | cons c rest ih =>
    intro acc h
    by_cases hc : c = '\n'.toNat
    · have hraw : rawLinesFrom acc (c :: rest) = acc :: rawLinesFrom [] rest := by
        rw [rawLinesFrom, if_pos hc]
      rw [hraw] at h
      have hl : acc.length < MaxScanTokenSize := h acc (List.mem_cons_self _ _)
      rw [hraw, scanLinesFrom, if_pos hc, if_pos hl,
        ih [] (fun l hl => h l (List.mem_cons_of_mem _ hl))]
      rfl
    · have hraw : rawLinesFrom acc (c :: rest) = rawLinesFrom (acc ++ [c]) rest := by
        rw [rawLinesFrom, if_neg hc]
      rw [hraw] at h
      rw [hraw, scanLinesFrom, if_neg hc, ih (acc ++ [c]) h]

/-- The lines of a text hold all its bytes but the line feeds, in order. -/
theorem rawLinesFrom_flatten (text : Str) : ∀ acc : Str,
    (rawLinesFrom acc text).flatten = acc ++ text.filter (fun c => c ≠ '\n'.toNat) := by
  induction text with
  | nil =>
    intro acc
    by_cases ha : acc = [] <;> simp [rawLinesFrom, ha]
  | cons c rest ih =>
    intro acc
    by_cases hc : c = '\n'.toNat
    · rw [rawLinesFrom, if_pos hc, List.flatten_cons, ih []]
      simp [hc]
    · have hc10 : ¬ c = 10 := hc
      rw [rawLinesFrom, if_neg hc, ih (acc ++ [c])]
      simp [hc10]

theorem scanLinesFrom_replicate (x : Nat) (hx : x ≠ '\n'.toNat) (rest : Str) :
    ∀ (k : Nat) (acc : Str),
      scanLinesFrom acc (List.replicate k x ++ rest) =
        scanLinesFrom (acc ++ List.replicate k x) rest := by
  intro k
  induction k with
  | zero => intro acc; simp
  | succ k ih =>
    intro acc
    rw [List.replicate_succ, List.cons_append, scanLinesFrom, if_neg hx, ih (acc ++ [x])]
    simp

theorem rawLinesFrom_replicate (x : Nat) (hx : x ≠ '\n'.toNat) (rest : Str) :
    ∀ (k : Nat) (acc : Str),
      rawLinesFrom acc (List.replicate k x ++ rest) =
        rawLinesFrom (acc ++ List.replicate k x) rest := by
  intro k
  induction k with
  | zero => intro acc; simp
  | succ k ih =>
    intro acc
    rw [List.replicate_succ, List.cons_append, rawLinesFrom, if_neg hx, ih (acc ++ [x])]
    simp

theorem dropCR_replicate (k x : Nat) (hx : x ≠ '\r'.toNat) :
    dropCR (List.replicate k x) = List.replicate k x := by
  unfold dropCR
  rw [if_neg]
  intro h
  have hmem : '\r'.toNat ∈ List.replicate k x := List.mem_of_getLast?_eq_some h
  exact hx (List.eq_of_mem_replicate hmem).symm

/-- A first line of `k` bytes `x`, `k` being the buffer size or more, ends the scan: no line
is yielded, whatever follows. -/
theorem scanLines_long_first_line (k x : Nat) (rest : Str) (hk : MaxScanTokenSize ≤ k)
    (hx : x ≠ '\n'.toNat) :
    scanLines (List.replicate k x ++ '\n'.toNat :: rest) = [] := by
  unfold scanLines
  rw [scanLinesFrom_replicate x hx _ k [], scanLinesFrom, if_pos rfl, if_neg]
  rw [List.nil_append, List.length_replicate]
  omega

theorem linesOf_long_first_line (k x : Nat) (rest : Str) (hx : x ≠ '\n'.toNat)
    (hr : x ≠ '\r'.toNat) :
    linesOf (List.replicate k x ++ '\n'.toNat :: rest) = List.replicate k x :: linesOf rest := by
  unfold linesOf
  rw [rawLinesFrom_replicate x hx _ k [], rawLinesFrom, if_pos rfl, List.nil_append,
    List.map_cons, dropCR_replicate k x hr]

/-- C16 as stated fails: the document `longLineDocument` has two lines, 65536 bytes `x` and
`y`, neither holds a reference, and the expansion loop of `main` yields the empty text: the
scanner gives up on the first line, which does not fit its buffer, and the loop takes that
for the end of the document. -/
theorem mainLoop_long_line_lost :
    linesOf longLineDocument = [List.replicate 65536 'x'.toNat, (bytes "y")] ∧
      (∀ l ∈ linesOf longLineDocument, getComponents l = some []) ∧
      scanLines longLineDocument = [] ∧
      ∀ n, mainLoop fooStore n longLineDocument World.init = Outcome.ok ([], World.init) := by
  have hdoc : longLineDocument = List.replicate 65536 'x'.toNat ++ '\n'.toNat :: (bytes "y") :=
    rfl
  have hlines : linesOf longLineDocument = [List.replicate 65536 'x'.toNat, (bytes "y")] := by
    rw [hdoc, linesOf_long_first_line 65536 'x'.toNat (bytes "y") (by decide) (by decide)]
    rfl
  have hscan : scanLines longLineDocument = [] := by
    rw [hdoc]
    exact scanLines_long_first_line 65536 'x'.toNat (bytes "y") (by decide) (by decide)
  refine ⟨hlines, ?_, hscan, ?_⟩
  · intro l hl
    rw [hlines] at hl
    simp only [List.mem_cons, List.mem_singleton, List.not_mem_nil, or_false] at hl
    rcases hl with rfl | rfl
    · apply getComponents_no_lt
      intro hmem
      exact absurd (List.eq_of_mem_replicate hmem) (by decide)
    · decide
  · intro n
    unfold mainLoop
    rw [hscan]
    rfl

/-- C16, as amended: on a line on which `getComponents` finds no reference `processLine`
returns the line itself and leaves cache, log and opened files as they are, whatever the
recursion budget; hence for a document each of whose lines is shorter than 64 KiB (its
carriage return included) and none of whose lines holds a reference, the expansion loop of
`main` yields the concatenation of its lines, in order and without their terminators, and
changes nothing else. -/
theorem mainLoop_no_reference (fs : FileSystem) (n : Nat) (document : Str) (w : World)
    (hshort : ShortLines document)
    (h : ∀ l ∈ linesOf document, getComponents l = some []) :
    (∀ (line : Str) (k : Int) (w1 : World), getComponents line = some [] →
        processLine fs n line k w1 = Outcome.ok (line, w1)) ∧
      mainLoop fs n document w = Outcome.ok ((linesOf document).flatten, w) := by
  refine ⟨fun line k w1 hl => processLine_no_reference fs n line k w1 hl, ?_⟩
  have hscan : scanLines document = linesOf document :=
    scanLinesFrom_eq_rawLines document [] hshort
  unfold mainLoop
  rw [hscan, expandLines_no_reference fs n w (linesOf document) h 0 []]
  rfl

/-- C16 as amended, at the document of the two lines `<p>hi</p>` and `bye`, the first ended
by carriage return and line feed, the second by a line feed. -/
theorem mainLoop_no_reference_witness :
    ShortLines (bytes "<p>hi</p>\r\nbye\n") ∧
      linesOf (bytes "<p>hi</p>\r\nbye\n") = [(bytes "<p>hi</p>"), (bytes "bye")] ∧
      mainLoop fooStore 0 (bytes "<p>hi</p>\r\nbye\n") World.init =
        Outcome.ok ((bytes "<p>hi</p>bye"), World.init) := by
  have hs : ShortLines (bytes "<p>hi</p>\r\nbye\n") := by
    unfold ShortLines
    decide
  have h := (mainLoop_no_reference fooStore 0 (bytes "<p>hi</p>\r\nbye\n") World.init hs
    (by decide)).2
  refine ⟨hs, by decide, ?_⟩
  rw [h]
  decide

/-- C20, the code at a failing input: on the line `<app-foo />` the scanner returns the
trimmed name `foo`, the literal `<app-foo/>` does not occur in the line, `componentIndex`
becomes `len(line) - 1` and the slice `line[componentIndex+len(componentTag):]` is out of
range: `processLine` panics. -/
theorem processLine_slice_out_of_range :
    getComponents (bytes "<app-foo />") = some [(bytes "foo")] ∧
      Index (bytes "<app-foo />") (refTag (bytes "foo")) = -1 ∧
      slice (bytes "<app-foo />") (10 + 10) 11 = none ∧
      processLine fooStore 1 (bytes "<app-foo />") 0 World.init = Outcome.panic := by
  decide

end HtmlCompile
